import Mathlib

/-!
Verification of the `Replay` CSV-to-JSON replay engine (`src/replay.hpp`).

The C++ class reads a CSV file, parses a header line into keypaths,
and converts each data row into a nested JSON object.  This file gives a
shallow embedding of the header's pure functions
(`parse_csv_line`, `split_keypath`, `is_numeric`, `parse_number`,
`set_nested_value`, `build_json_from_row`) and of the stateful stream
engine (`advance`, `reset`, `has_next`, `play`, `count_data_rows`),
together with theorems settling the specification claims.

Machine doubles are modelled by exact rational values (the classification
of a field as numeric versus string, which is all the claims depend on,
is decided by the scan alone and not by rounding); `std::strtod` is
modelled by an explicit scanner over the character list, including its
acceptance of leading whitespace, hex, infinity and nan forms.
-/

namespace Replay

/-- Characters accepted by C `isspace` in the C locale, as skipped by
`strtod` and `stoi` before the number proper. -/
def cWs (c : Char) : Bool :=
  c = ' ' || c = '\t' || c = '\n' || c = '\x0b' || c = '\x0c' || c = '\r'

/-- Decimal digit test (code points 48-57). -/
def isDig (c : Char) : Bool := 48 ≤ c.toNat && c.toNat ≤ 57

/-- Hexadecimal digit test (decimal digits, `a`-`f`, `A`-`F`). -/
def isHexDig (c : Char) : Bool :=
  isDig c || (97 ≤ c.toNat && c.toNat ≤ 102) || (65 ≤ c.toNat && c.toNat ≤ 70)

/-- Numeric value of a decimal digit. -/
def digVal (c : Char) : Nat := c.toNat - '0'.toNat

/-- Numeric value of a hexadecimal digit. -/
def hexVal (c : Char) : Nat :=
  if isDig c then digVal c
  else if 'a' ≤ c && c ≤ 'f' then c.toNat - 'a'.toNat + 10
  else c.toNat - 'A'.toNat + 10

/-- Fold a digit list into a natural number (most significant first). -/
def natOfDigs (ds : List Char) : Nat :=
  ds.foldl (fun a c => a * 10 + digVal c) 0

/-- Fold a hex digit list into a natural number (most significant first). -/
def natOfHexDigs (ds : List Char) : Nat :=
  ds.foldl (fun a c => a * 16 + hexVal c) 0

/-- Result of a C `strtod` conversion: a finite value, an infinity, or a
nan.  A finite value is kept exactly as the fraction `n / d` written in
the literal (the denominator is the power of ten, sixteen or two the scan
produces); the claims never depend on double rounding, only on which
strings convert and on the determinism of the conversion, and no claim
equates values obtained from two different source strings. -/
inductive RVal where
  | num (n : Int) (d : Nat)
  | inf (neg : Bool)
  | nan
  deriving DecidableEq

/-- Characters allowed in the optional `nan(...)` payload. -/
def nanChar (c : Char) : Bool := c.isAlphanum || c = '_'

/-- Case-insensitive match of `pat` against a prefix of `cs`. -/
def ciPre (pat : List Char) (cs : List Char) : Bool :=
  (cs.take pat.length).map Char.toLower == pat

/-- Split an optional leading sign character off a character list. -/
def signSplit (cs : List Char) : Bool × List Char :=
  if cs.head? = some '+' then (false, cs.tail)
  else if cs.head? = some '-' then (true, cs.tail)
  else (false, cs)

/-- Scan an optional exponent part `e`/`E` (or `p`/`P` for hex), sign and
at least one digit; returns the signed exponent and the rest, or leaves
the input untouched when the exponent form is incomplete (as `strtod`
backtracks over a bare `e`). -/
def scanExp (lo hi : Char) (cs : List Char) : Int × List Char :=
  if cs.head? = some lo ∨ cs.head? = some hi then
    let (neg, rest') := signSplit cs.tail
    let ds := rest'.takeWhile isDig
    if ds.isEmpty then (0, cs)
    else ((if neg then -(natOfDigs ds : Int) else (natOfDigs ds : Int)),
          rest'.dropWhile isDig)
  else (0, cs)

/-- Assemble a finite `RVal` from an unsigned mantissa, a base
denominator, a scale base and a signed exponent: the exact value of
`mant / den * base ^ e` with the sign applied. -/
def mkNum (neg : Bool) (mant den : Nat) (base : Nat) (e : Int) : RVal :=
  let (nn, dd) : Nat × Nat :=
    if 0 ≤ e then (mant * base ^ e.toNat, den)
    else (mant, den * base ^ (-e).toNat)
  RVal.num (if neg then -(nn : Int) else (nn : Int)) dd

/-- Does the input open a hexadecimal literal (`0x` / `0X`)? -/
def hexPre (cs : List Char) : Bool :=
  decide (cs.head? = some '0') &&
    (decide (cs.tail.head? = some 'x') || decide (cs.tail.head? = some 'X'))

/-- Scan a plain decimal form: digits, an optional `'.'`-fraction, an
optional exponent; at least one digit overall is required. -/
def scanDec (neg : Bool) (cs : List Char) : Option (RVal × List Char) :=
  let d1 := cs.takeWhile isDig
  let r1 := cs.dropWhile isDig
  let (d2, r2) :=
    if r1.head? = some '.' then (r1.tail.takeWhile isDig, r1.tail.dropWhile isDig)
    else ([], r1)
  if d1.isEmpty && d2.isEmpty then none
  else
    let (e, r3) := scanExp 'e' 'E' r2
    some (mkNum neg (natOfDigs (d1 ++ d2)) (10 ^ d2.length) 10 e, r3)

/-- Scan the body of a `strtod` subject sequence (everything after
whitespace and sign).  Returns the converted value and the unconsumed
rest, or `none` when no conversion is possible at all. -/
def scanBody (neg : Bool) (cs : List Char) : Option (RVal × List Char) :=
  if ciPre ['i','n','f','i','n','i','t','y'] cs then
    some (RVal.inf neg, cs.drop 8)
  else if ciPre ['i','n','f'] cs then
    some (RVal.inf neg, cs.drop 3)
  else if ciPre ['n','a','n'] cs then
    let after := cs.drop 3
    if after.head? = some '(' then
      let u := after.tail.dropWhile nanChar
      if u.head? = some ')' then some (RVal.nan, u.tail)
      else some (RVal.nan, after)
    else some (RVal.nan, after)
  else if hexPre cs then
    let t := cs.drop 2
    let h1 := t.takeWhile isHexDig
    let r1 := t.dropWhile isHexDig
    let (h2, r2) :=
      if r1.head? = some '.' then (r1.tail.takeWhile isHexDig, r1.tail.dropWhile isHexDig)
      else ([], r1)
    if h1.isEmpty && h2.isEmpty then
      -- "0x" with no hex digit: only the initial "0" converts
      some (RVal.num 0 1, cs.drop 1)
    else
      let (e, r3) := scanExp 'p' 'P' r2
      some (mkNum neg (natOfHexDigs (h1 ++ h2)) (16 ^ h2.length) 2 e, r3)
  else scanDec neg cs

/-- Model of C `strtod` on a character list: skip C whitespace, read an
optional sign, then the body.  Returns the value and the unconsumed
suffix; `none` when no conversion is performed (in which case `strtod`
leaves the end pointer at the very start of the string). -/
def strtodScan (cs : List Char) : Option (RVal × List Char) :=
  let r1 := cs.dropWhile cWs
  let (neg, r2) := signSplit r1
  scanBody neg r2

/--
Source translation of `Replay::is_numeric`:

    bool is_numeric(const std::string &str) {
      if (str.empty()) return false;
      char *end;
      std::strtod(str.c_str(), &end);
      return end == str.c_str() + str.length();
    }

The end pointer reaches the end of the string exactly when a conversion
happened and nothing was left unconsumed. -/
def is_numeric (s : String) : Bool :=
  if s.isEmpty then false
  else match strtodScan s.data with
    | some (_, rest) => rest.isEmpty
    | none => false

/-- Source translation of `Replay::parse_number`, i.e. the value
`std::strtod` returns (0 when no conversion is possible). -/
def parse_number (s : String) : RVal :=
  match strtodScan s.data with
  | some (v, _) => v
  | none => RVal.num 0 1

/-- Model of `std::stoi`: skip C whitespace, optional sign, at least one
decimal digit, value range-checked against `int`.  `none` models the
`std::invalid_argument` / `std::out_of_range` exceptions. -/
def stoiOpt (s : String) : Option Int :=
  let r1 := s.data.dropWhile cWs
  let (neg, r2) := signSplit r1
  let ds := r2.takeWhile isDig
  if ds.isEmpty then none
  else
    let v : Int := if neg then -(natOfDigs ds : Int) else (natOfDigs ds : Int)
    if v < -(2 ^ 31) || (2 ^ 31 - 1) < v then none else some v

/--
Source translation of `Replay::split_keypath`:

    std::vector<std::string> split_keypath(const std::string &keypath) {
      std::vector<std::string> parts;
      std::stringstream ss(keypath);
      std::string part;
      while (std::getline(ss, part, '.')) parts.push_back(part);
      return parts;
    }

`std::getline` with delimiter `'.'` reads characters up to the delimiter
(consuming it) or end of input, and fails only when no character at all
can be read; hence a trailing `'.'` produces no extra empty segment and
the empty string produces no segments.  `splitKeypathAux` threads the
current accumulated segment (in reverse) through the character list. -/
def splitKeypathAux : List Char → List Char → List String
  | acc, [] => if acc.isEmpty then [] else [String.mk acc.reverse]
  | acc, c :: cs =>
    if c = '.' then String.mk acc.reverse :: splitKeypathAux [] cs
    else splitKeypathAux (c :: acc) cs

/-- `Replay::split_keypath` on a string. -/
def split_keypath (s : String) : List String :=
  splitKeypathAux [] s.data

/-- Join keypath segments with `'.'`, as `build_json_from_row` does when
assembling the array base keypath. -/
def joinDots : List String → String
  | [] => ""
  | [p] => p
  | p :: ps => p ++ "." ++ joinDots ps

/--
Source translation of `Replay::parse_csv_line`: a single left-to-right
scan with an `in_quotes` flag toggled on each `'"'`; a `','` outside
quotes ends the current field; every other character is appended to the
current field; the last field is pushed unconditionally at end of line.
The accumulator holds the current field's characters in reverse. -/
def parseCsvAux : Bool → List Char → List Char → List String
  | _, acc, [] => [String.mk acc.reverse]
  | inQ, acc, c :: cs =>
    if c = '"' then parseCsvAux (!inQ) acc cs
    else if c = ',' && !inQ then String.mk acc.reverse :: parseCsvAux inQ [] cs
    else parseCsvAux inQ (c :: acc) cs

/-- `Replay::parse_csv_line` on a string. -/
def parse_csv_line (line : String) : List String :=
  parseCsvAux false [] line.data

/--
Source translation of `Replay::is_comment_line`: the first character that
is not a space (`' '` only) is `'#'`; a line of only spaces is not a
comment. -/
def is_comment_line (l : String) : Bool :=
  match l.data.dropWhile (fun c => c = ' ') with
  | [] => false
  | c :: _ => c = '#'

/-- Source translation of `Replay::is_empty_line`: every character is a
space, tab, carriage return or newline. -/
def is_empty_line (l : String) : Bool :=
  l.data.all (fun c => c = ' ' || c = '\t' || c = '\r' || c = '\n')

/-- A line skipped by every reading loop in the source: comment or blank. -/
def skipLine (l : String) : Bool := is_comment_line l || is_empty_line l

/-! ## The JSON value model

`nlohmann::json` objects are `std::map<std::string, json>`, ordered by
byte-wise string comparison; on UTF-8 data byte order coincides with
code point order, modelled by `lexLt` below.  Arrays and objects carry
their children as lists. -/

/-- Byte-wise (code point) lexicographic strict order on character
lists, as `std::string::operator<` compares keys in `std::map`. -/
def lexLt : List Char → List Char → Bool
  | [], [] => false
  | [], _ :: _ => true
  | _ :: _, [] => false
  | a :: as, b :: bs =>
    if a.toNat < b.toNat then true
    else if b.toNat < a.toNat then false
    else lexLt as bs

/-- Strict order on strings used for `std::map<std::string, _>` keys. -/
def strLt (a b : String) : Bool := lexLt a.data b.data

/-- The JSON value tree built per data row. -/
inductive Json where
  | null
  | str (s : String)
  | num (v : RVal)
  | arr (elems : List Json)
  | obj (fields : List (String × Json))

/-- `nlohmann::json::empty()`: `true` for `null` and for an object or
array of size zero, `false` for strings and numbers. -/
def jsonEmpty : Json → Bool
  | .null => true
  | .arr l => l.isEmpty
  | .obj fs => fs.isEmpty
  | _ => false

/-- Crashes of `build_json_from_row`: an out-of-bounds vector access on
an empty keypath (`parts.back()` / `parts[i]` on an empty `parts`), or a
`std::stoi` exception on an index segment. -/
inductive Err where
  | oob
  | stoiFail
  deriving DecidableEq

/-- Lookup in an object's field map. -/
def getKey : List (String × Json) → String → Option Json
  | [], _ => none
  | (k', v) :: rest, k => if k = k' then some v else getKey rest k

/-- Insert-or-replace in an object's field map, keeping keys in
`std::map` ascending order. -/
def objSet : List (String × Json) → String → Json → List (String × Json)
  | [], k, v => [(k, v)]
  | (k', v') :: rest, k, v =>
    if strLt k k' then (k, v) :: (k', v') :: rest
    else if k = k' then (k, v) :: rest
    else (k', v') :: objSet rest k v

/-- The walk's step object: the existing child when it is an object,
otherwise the fresh empty object the source assigns in its place
(`if (!current->contains(parts[i]) || !...is_object()) ... = object{}`). -/
def childOf (fs : List (String × Json)) (k : String) : List (String × Json) :=
  match getKey fs k with
  | some (Json.obj g) => g
  | _ => []

/--
Source translation of the common walk of both `set_nested_value`
overloads:

    for (size_t i = 0; i < parts.size() - 1; ++i) {
      if (!current->contains(parts[i]) || !(*current)[parts[i]].is_object())
        (*current)[parts[i]] = nlohmann::json::object();
      current = &(*current)[parts[i]];
    }
    (*current)[parts.back()] = value;

On an empty `parts`, `parts.size() - 1` wraps around and `parts[0]` /
`parts.back()` are out-of-bounds accesses, modelled by `Err.oob`. -/
def setNestedF : List (String × Json) → List String → Json → Except Err (List (String × Json))
  | _, [], _ => .error .oob
  | fs, [k], v => .ok (objSet fs k v)
  | fs, k :: rest, v =>
    match setNestedF (childOf fs k) rest v with
    | .ok g' => .ok (objSet fs k (Json.obj g'))
    | .error e => .error e

/-- Numeric detection applied when a leaf is set from a row field:
`if (is_numeric(value)) ... parse_number(value) ... else ... value`. -/
def valJson (v : String) : Json :=
  if is_numeric v then Json.num (parse_number v) else Json.str v

/-- `Replay::set_nested_value` (string overload): split the keypath,
walk, and set the leaf with numeric detection. -/
def set_nested_value (fs : List (String × Json)) (keypath : String) (value : String) :
    Except Err (List (String × Json)) :=
  setNestedF fs (split_keypath keypath) (valJson value)

/-- `Replay::set_nested_value` (json overload): same walk, the value is
stored as given. -/
def set_nested_json (fs : List (String × Json)) (keypath : String) (value : Json) :
    Except Err (List (String × Json)) :=
  setNestedF fs (split_keypath keypath) value

/-! ## Row materialization (`build_json_from_row`) -/

/-- The index `j` of the first keypath segment with `is_numeric(parts[j])`,
as found by the source's left-to-right break loop. -/
def firstNumIdx : List String → Option Nat
  | [] => none
  | p :: ps => if is_numeric p then some 0 else (firstNumIdx ps).map (· + 1)

/-- Insert-or-replace in the per-base `std::map<int, std::string>` of
array values, keys ascending. -/
def imInsert : List (Int × String) → Int → String → List (Int × String)
  | [], k, v => [(k, v)]
  | (k', v') :: rest, k, v =>
    if k < k' then (k, v) :: (k', v') :: rest
    else if k = k' then (k, v) :: rest
    else (k', v') :: imInsert rest k v

/-- Lookup in the per-base index map (`index_value_map.find(i)`). -/
def imFind : List (Int × String) → Int → Option String
  | [], _ => none
  | (k', v) :: rest, k => if k = k' then some v else imFind rest k

/-- `arrays[base_keypath][array_index] = value` on the outer
`std::map<std::string, std::map<int, std::string>>`. -/
def amInsert : List (String × List (Int × String)) → String → Int → String →
    List (String × List (Int × String))
  | [], b, i, v => [(b, imInsert [] i v)]
  | (b', m) :: rest, b, i, v =>
    if strLt b b' then (b, imInsert [] i v) :: (b', m) :: rest
    else if b = b' then (b, imInsert m i v) :: rest
    else (b', m) :: amInsert rest b i v

/-- The source's maximum-index computation: `std::max` folded over the
map starting from `-1`. -/
def maxIdx (m : List (Int × String)) : Int :=
  m.foldl (fun a p => max a p.1) (-1)

/-- The array built for one base keypath: length `max_index + 1`, the
value (numeric-detected) where an index is present, `null` where it is
missing. -/
def mkArrayJson (m : List (Int × String)) : List Json :=
  (List.range (maxIdx m + 1).toNat).map
    (fun (i : Nat) => match imFind m (i : Int) with
      | some v => valJson v
      | none => Json.null)

/-- The per-column dispatch of `build_json_from_row`: find the first
numeric segment; if there is one, record `(index, value)` under the base
keypath joined with dots (a `std::stoi` exception propagates as
`Err.stoiFail`); otherwise do a scalar `set_nested_value`. -/
def colStep (st : List (String × List (Int × String)) × List (String × Json))
    (col : String × String) :
    Except Err (List (String × List (Int × String)) × List (String × Json)) :=
  let parts := split_keypath col.1
  match firstNumIdx parts with
  | some j =>
    match stoiOpt (parts.getD j "") with
    | some idx => .ok (amInsert st.1 (joinDots (parts.take j)) idx col.2, st.2)
    | none => .error .stoiFail
  | none =>
    match set_nested_value st.2 col.1 col.2 with
    | .ok fs => .ok (st.1, fs)
    | .error e => .error e

/-- First phase of `build_json_from_row`: process the columns in order
(the row is consumed positionally up to the shorter of header and row). -/
def phase1 : List (String × String) →
    List (String × List (Int × String)) × List (String × Json) →
    Except Err (List (String × List (Int × String)) × List (String × Json))
  | [], st => .ok st
  | c :: cs, st =>
    match colStep st c with
    | .ok st' => phase1 cs st'
    | .error e => .error e

/-- Second phase of `build_json_from_row`: attach one array per base
keypath, in the ascending key order of the outer `std::map`. -/
def phase2 : List (String × List (Int × String)) → List (String × Json) →
    Except Err (List (String × Json))
  | [], fs => .ok fs
  | (base, m) :: rest, fs =>
    match set_nested_json fs base (Json.arr (mkArrayJson m)) with
    | .ok fs' => phase2 rest fs'
    | .error e => .error e

/-- The field map of the object `Replay::build_json_from_row` returns. -/
def buildFields (headers row : List String) : Except Err (List (String × Json)) :=
  match phase1 (headers.zip row) ([], []) with
  | .ok (arrays, fs) => phase2 arrays fs
  | .error e => .error e

/-- `Replay::build_json_from_row`. -/
def build_json_from_row (headers row : List String) : Except Err Json :=
  (buildFields headers row).map Json.obj

/-- Path lookup in a field map: descend through objects along the
segments; `none` when a segment is missing or a non-object is hit
before the last segment. -/
def getNested : List (String × Json) → List String → Option Json
  | _, [] => none
  | fs, [k] => getKey fs k
  | fs, k :: rest =>
    match getKey fs k with
    | some (Json.obj g) => getNested g rest
    | _ => none

/-! ## Header goodness predicates -/

/-- `std::stoi` succeeds on the segment (no exception). -/
def stoiOk (s : String) : Bool := (stoiOpt s).isSome

/-- The bounds part of header goodness: the keypath resolves to at least
one segment, and when an array index segment is present the base keypath
also resolves to at least one segment, so every `set_nested_value` walk
for this header stays in bounds. -/
def headerBoundsOk (h : String) : Bool :=
  match firstNumIdx (split_keypath h) with
  | none => !(split_keypath h).isEmpty
  | some j => !(split_keypath (joinDots ((split_keypath h).take j))).isEmpty

/-- Full header goodness: bounds plus a non-throwing `std::stoi` on the
index segment. -/
def headerOk (h : String) : Bool :=
  headerBoundsOk h &&
    (match firstNumIdx (split_keypath h) with
     | none => true
     | some j => stoiOk ((split_keypath h).getD j ""))

/-- Goodness of a parsed header list: at least one column and every
column good, so `build_json_from_row` returns a non-empty object on
every row the tokenizer can produce. -/
def goodHeaders (hs : List String) : Bool := !hs.isEmpty && hs.all headerOk

/-! ## The replay engine

The `std::ifstream` is modelled as the list of the file's lines with a
cursor `pos` (the index of the next line `std::getline` would read) and
the stream's `eofbit`/`failbit` flags.  `std::getline` fails without
reading when `failbit` is set, reads the line at `pos` when one exists,
and otherwise sets both `eofbit` and `failbit`.  A linear reading loop
that skips comment and blank lines is therefore a scan of
`lines.drop pos` for the first non-skipped line. -/

structure St where
  lines : List String
  pos : Nat
  eofbit : Bool
  failbit : Bool
  headers : List String
  loopEnabled : Bool
  deriving DecidableEq

/-- First non-skipped line of a line list, with the number of lines
skipped before it. -/
def findData : List String → Option (Nat × String)
  | [] => none
  | l :: ls =>
    if skipLine l then (findData ls).map (fun p => (p.1 + 1, p.2))
    else some (0, l)

/-- The `while (std::getline(...)) { skip comments/blanks; ... }` scan
shared by `advance`, `reset` and `parse_headers`: returns the first data
line (leaving the cursor just after it), or fails at end of source
setting `eofbit` and `failbit` as the final failed `getline` does. -/
def scanData (s : St) : Option String × St :=
  if s.failbit then (none, s)
  else
    match findData (s.lines.drop s.pos) with
    | some (i, l) => (some l, { s with pos := s.pos + i + 1 })
    | none => (none, { s with eofbit := true, failbit := true })

/--
Source translation of `Replay::reset`: `clear()`, `seekg(0)`, then read
lines, skipping comments and blanks, and stop right after the first
other line (the header line).  If the file has no such line the loop
runs to end of source and leaves the failed-stream flags set. -/
def reset (s : St) : St :=
  match findData s.lines with
  | some (i, _) => { s with pos := i + 1, eofbit := false, failbit := false }
  | none => { s with pos := s.lines.length, eofbit := true, failbit := true }

/-- The record materialized from one data line. -/
def recordE (headers : List String) (line : String) : Except Err Json :=
  build_json_from_row headers (parse_csv_line line)

/--
Source translation of `Replay::advance`: scan for a data line and
materialize it; at end of source, when loop mode is on and `eof()`
holds, `reset()` and scan exactly once more; otherwise (or when the
retry also finds nothing) return the sentinel `nlohmann::json{}`,
which is `null`. -/
def advance (s : St) : Except Err Json × St :=
  match scanData s with
  | (some line, s') => (recordE s'.headers line, s')
  | (none, s') =>
    if s'.loopEnabled && s'.eofbit then
      match scanData (reset s') with
      | (some line, s2) => (recordE s2.headers line, s2)
      | (none, s2) => (.ok Json.null, s2)
    else (.ok Json.null, s')

/-- Source translation of `Replay::has_next`: always true in loop mode,
otherwise `good() && !eof()` on the stream. -/
def has_next (s : St) : Bool := s.loopEnabled || (!s.eofbit && !s.failbit)

/-- Source translation of the constructor plus `parse_headers`: find the
header line, tokenize it, leave the cursor after it; `none` models the
`std::runtime_error` thrown when no header line exists. -/
def construct (lines : List String) : Option St :=
  match findData lines with
  | some (i, l) => some ⟨lines, i + 1, false, false, parse_csv_line l, false⟩
  | none => none

/-- Number of non-skipped lines in a line list. -/
def countData : List String → Nat
  | [] => 0
  | l :: ls => (if skipLine l then 0 else 1) + countData ls

/--
Source translation of `Replay::count_data_rows`: save `tellg()` (which
is `-1`, modelled `none`, on a failed stream), `reset()`, count the
non-comment non-blank lines to end of source, then `clear()` and
`seekg(saved)` — a `seekg(-1)` fails and sets `failbit`. -/
def count_data_rows (s : St) : Nat × St :=
  let saved : Option Nat := if s.failbit then none else some s.pos
  let s1 := reset s
  let cnt := if s1.failbit then 0 else countData (s1.lines.drop s1.pos)
  let s2 :=
    if s1.failbit then s1
    else { s1 with pos := s1.lines.length, eofbit := true, failbit := true }
  let s3 :=
    match saved with
    | some p => { s2 with pos := p, eofbit := false, failbit := false }
    | none => { s2 with eofbit := false, failbit := true }
  (cnt, s3)

/--
The `while (...) { advance; if empty break; callback; }` loop of
`Replay::play`, with the number of remaining iterations made explicit;
returns the list of records handed to the callback.  In the bounded
loop-mode branch the iteration count is exactly
`max_cycles * rows_per_cycle`; in the other branch it is only an upper
bound on the iterations the C++ loop performs (see `play`). -/
def playSteps : Nat → St → Except Err (List Json) × St
  | 0, s => (.ok [], s)
  | m + 1, s =>
    if has_next s then
      match advance s with
      | (.error e, s') => (.error e, s')
      | (.ok j, s') =>
        if jsonEmpty j then (.ok [], s')
        else
          match playSteps m s' with
          | (.ok js, s'') => (.ok (j :: js), s'')
          | (.error e, s'') => (.error e, s'')
    else (.ok [], s)

/--
Source translation of `Replay::play`, returning the sequence of records
passed to the callback.  When loop mode is off, `lines.length + 1`
iterations can never be reached (each iteration either consumes at least
one line or stops), so the fuelled loop is exact; when loop mode is on
and `max_cycles = 0` the C++ loop is deliberately unbounded and the
model truncates it (no claim concerns that branch).  In the bounded
branch the iteration count `max_cycles * rows_per_cycle` is the one the
source computes. -/
def play (s : St) (maxCycles : Nat) : Except Err (List Json) × St :=
  if s.loopEnabled = false ∨ maxCycles = 0 then
    playSteps (s.lines.length + 1) s
  else
    let p := count_data_rows s
    if p.1 = 0 then (.ok [], p.2)
    else playSteps (maxCycles * p.1) (reset p.2)

/-- Repeated `advance` until the sentinel empty record, collecting the
records: the draining pattern of the specification's replay property.
With loop mode off each `advance` either consumes at least one line or
returns the sentinel, so `lines.length + 1` rounds are never exhausted. -/
def drainAux : Nat → St → Except Err (List Json) × St
  | 0, s => (.ok [], s)
  | m + 1, s =>
    match advance s with
    | (.error e, s') => (.error e, s')
    | (.ok j, s') =>
      if jsonEmpty j then (.ok [], s')
      else
        match drainAux m s' with
        | (.ok js, s'') => (.ok (j :: js), s'')
        | (.error e, s'') => (.error e, s'')

/-- Drain a source by repeated `advance`. -/
def drainRecords (s : St) : Except Err (List Json) × St :=
  drainAux (s.lines.length + 1) s

/-! ## Pure descriptions of a pass, used to state the claims -/

/-- The non-skipped lines of a line list. -/
def dataLines (ls : List String) : List String :=
  ls.filter (fun l => !skipLine l)

/-- Cursor position right after the header line (end of file when no
header line exists). -/
def bodyStart (lines : List String) : Nat :=
  match findData lines with
  | some (i, _) => i + 1
  | none => lines.length

/-- The number of data rows of one full pass, as `count_data_rows`
determines it. -/
def rowsPerCycle (lines : List String) : Nat :=
  countData (lines.drop (bodyStart lines))

/-- The record of one data line as a plain `Json` (`null` on a crash;
under `goodHeaders` a crash cannot happen). -/
def rowJson (headers : List String) (l : String) : Json :=
  match recordE headers l with
  | .ok j => j
  | .error _ => Json.null

/-- The record sequence of one full pass over the data rows. -/
def onePassRecords (lines headers : List String) : List Json :=
  (dataLines (lines.drop (bodyStart lines))).map (rowJson headers)

/-- `cyc full cur m`: the next `m` records of the periodic stream that
first yields `cur` and then repeats `full` forever (empty when `full`
runs out while `cur` is empty). -/
def cyc (full : List Json) : List Json → Nat → List Json
  | _, 0 => []
  | [], m + 1 =>
    match full with
    | [] => []
    | x :: xs => x :: cyc full xs m
  | x :: xs, m + 1 => x :: cyc full xs m

/-! ## Declarative counterparts used to state and check the claims

These definitions follow the claims' own words (they are the comparison
side of the refinement statements, not translations of the source). -/

/-- Declarative dot splitter: structural recursion on the characters,
starting a new segment at each `'.'`. -/
def dotSplitSpecAux : List Char → List (List Char)
  | [] => []
  | c :: cs =>
    if c = '.' then [] :: dotSplitSpecAux cs
    else
      match dotSplitSpecAux cs with
      | [] => [[c]]
      | p :: ps => (c :: p) :: ps

/-- Declarative dot splitter on strings. -/
def dotSplitSpec (s : String) : List String :=
  (dotSplitSpecAux s.data).map (fun p => String.mk p)

/-- Declarative tokenizer following the claim's description: a comma
outside quotes starts a new field, a quote toggles the flag and is
dropped, every other character joins the current field, and the current
field is emitted at end of line. -/
def tokSpecAux : Bool → List Char → List (List Char)
  | _, [] => [[]]
  | inQ, c :: cs =>
    if c = '"' then tokSpecAux (!inQ) cs
    else if c = ',' && !inQ then [] :: tokSpecAux inQ cs
    else
      match tokSpecAux inQ cs with
      | [] => [[c]]
      | f :: fs => (c :: f) :: fs

/-- Declarative tokenizer on strings. -/
def tokSpec (line : String) : List String :=
  (tokSpecAux false line.data).map (fun p => String.mk p)

/-- Whitespace trim on both ends, for the claim's "trimmed field". -/
def trimWs (s : String) : List Char :=
  ((s.data.dropWhile cWs).reverse.dropWhile cWs).reverse

/-- The claim's "strict floating-point literal": optional sign, digits
with an optional plain-`'.'` fraction (at least one digit overall) and
an optional exponent, nothing else. -/
def plainDecChk (cs : List Char) : Bool :=
  let r0 :=
    match cs with
    | '+' :: t => t
    | '-' :: t => t
    | t => t
  let d1 := r0.takeWhile isDig
  let r1 := r0.dropWhile isDig
  let (d2, r2) :=
    match r1 with
    | '.' :: u => (u.takeWhile isDig, u.dropWhile isDig)
    | _ => ([], r1)
  if d1.isEmpty && d2.isEmpty then false
  else
    match r2 with
    | [] => true
    | c :: t =>
      if c = 'e' || c = 'E' then
        let t' :=
          match t with
          | '+' :: u => u
          | '-' :: u => u
          | u => u
        !(t'.takeWhile isDig).isEmpty && (t'.dropWhile isDig).isEmpty
      else false

/-- Numeric detection as the claim words it: the entire trimmed field is
consumed by a strict plain decimal literal parse, and an empty (trimmed)
field is never numeric. -/
def claimNumeric (s : String) : Bool :=
  !(trimWs s).isEmpty && plainDecChk (trimWs s)

/-! Declarative grammar of the strings `strtod` converts completely. -/

/-- An optional single sign character. -/
def signOpt (g : List Char) : Prop := g = [] ∨ g = ['+'] ∨ g = ['-']

/-- An optional fraction: nothing, or a point followed by digits. -/
def fracOpt (f : List Char) : Prop :=
  f = [] ∨ ∃ ds, f = '.' :: ds ∧ ∀ d ∈ ds, isDig d = true

/-- An optional exponent marked `lo`/`hi`, with an optional sign and at
least one digit. -/
def expOpt (lo hi : Char) (e : List Char) : Prop :=
  e = [] ∨ ∃ c g ds, e = c :: (g ++ ds) ∧ (c = lo ∨ c = hi) ∧ signOpt g ∧
    ds ≠ [] ∧ ∀ d ∈ ds, isDig d = true

/-- A decimal body: digits, optional fraction, optional exponent, with
at least one digit in the mantissa. -/
def decForm (b : List Char) : Prop :=
  ∃ d1 f e, b = d1 ++ f ++ e ∧ (∀ d ∈ d1, isDig d = true) ∧ fracOpt f ∧
    expOpt 'e' 'E' e ∧ (d1 ≠ [] ∨ ∃ ds, f = '.' :: ds ∧ ds ≠ [])

/-- An optional hexadecimal fraction. -/
def hexFracOpt (f : List Char) : Prop :=
  f = [] ∨ ∃ ds, f = '.' :: ds ∧ ∀ d ∈ ds, isHexDig d = true

/-- A hexadecimal body: `0x`/`0X`, hex digits with an optional hex
fraction (at least one hex digit), and an optional `p` exponent. -/
def hexForm (b : List Char) : Prop :=
  ∃ x h1 f e, b = '0' :: x :: (h1 ++ f ++ e) ∧ (x = 'x' ∨ x = 'X') ∧
    (∀ d ∈ h1, isHexDig d = true) ∧ hexFracOpt f ∧ expOpt 'p' 'P' e ∧
    (h1 ≠ [] ∨ ∃ ds, f = '.' :: ds ∧ ds ≠ [])

/-- The infinity bodies, case-insensitively. -/
def infForm (b : List Char) : Prop :=
  b.map Char.toLower = ['i', 'n', 'f'] ∨
    b.map Char.toLower = ['i', 'n', 'f', 'i', 'n', 'i', 't', 'y']

/-- The nan bodies, case-insensitively, with an optional parenthesized
payload of alphanumeric/underscore characters. -/
def nanForm (b : List Char) : Prop :=
  (b.take 3).map Char.toLower = ['n', 'a', 'n'] ∧
    (b.drop 3 = [] ∨
      ∃ seq, b.drop 3 = '(' :: (seq ++ [')']) ∧ ∀ c ∈ seq, nanChar c = true)

/-- Any body `strtod` accepts. -/
def bodyLang (b : List Char) : Prop :=
  decForm b ∨ hexForm b ∨ infForm b ∨ nanForm b

/-- The full language of strings `strtod` consumes to the end: optional
C whitespace, optional sign, then an accepted body. -/
def numLang (cs : List Char) : Prop :=
  ∃ w g b, cs = w ++ g ++ b ∧ (∀ c ∈ w, cWs c = true) ∧ signOpt g ∧ bodyLang b

/-- Two segment paths diverge when they differ at some position that
both possess (so neither is a prefix of the other): a nested write at
one cannot touch the value at the other. -/
def pathsDiverge (p q : List String) : Prop :=
  ∃ i, i < p.length ∧ i < q.length ∧ p.take i = q.take i ∧ p.getD i "" ≠ q.getD i ""

/-! # Theorems -/

/-- The accumulator-threading splitter agrees with the declarative dot
splitter, up to the pending segment held in the accumulator. -/
theorem splitKeypathAux_spec (cs : List Char) : ∀ acc,
    splitKeypathAux acc cs =
      (match dotSplitSpecAux cs with
       | [] => if acc.isEmpty then [] else [String.mk acc.reverse]
       | p :: ps => String.mk (acc.reverse ++ p) :: ps.map (fun q => String.mk q)) := by
  induction cs with
  | nil => intro acc; simp [splitKeypathAux, dotSplitSpecAux]
  | cons c cs ih =>
    intro acc
    by_cases hc : c = '.'
    · subst hc
      simp only [splitKeypathAux, dotSplitSpecAux, if_pos rfl, ih []]
      cases hsp : dotSplitSpecAux cs <;> simp
    · simp only [splitKeypathAux, dotSplitSpecAux, if_neg hc, ih (c :: acc)]
      cases hsp : dotSplitSpecAux cs <;> simp

/--
C1 (amended): the Keypath Resolver splits the raw header field on `'.'`
alone — each `'.'` ends the current segment, a trailing `'.'` or an
empty input contributes no segment, and `'['`, `']'` and `'/'` are
ordinary characters with no boundary or normalization effect; in
particular `signal[0]` resolves to the single segment `signal[0]`. -/
theorem keypath_resolver_splits_on_dots_only :
    (∀ s, split_keypath s = dotSplitSpec s) ∧
    split_keypath "signal[0]" = ["signal[0]"] ∧
    split_keypath "/a.b" = ["/a", "b"] ∧
    split_keypath "a]." = ["a]"] ∧
    split_keypath "" = [] := by
  refine ⟨fun s => ?_, by decide, by decide, by decide, by decide⟩
  show splitKeypathAux [] s.data = dotSplitSpec s
  rw [splitKeypathAux_spec]
  unfold dotSplitSpec
  cases dotSplitSpecAux s.data <;> simp

/--
C1 (counterexample): the header field `signal[0]` does not resolve to
the two segments `signal`,`0`; the code's resolver keeps it as one
segment, brackets and all. -/
theorem keypath_resolver_bracket_counterexample :
    split_keypath "signal[0]" = ["signal[0]"] ∧
    split_keypath "signal[0]" ≠ ["signal", "0"] := by decide

/-- The declarative tokenizer always produces at least one field. -/
theorem tokSpecAux_ne_nil : ∀ (cs : List Char) (inQ : Bool), tokSpecAux inQ cs ≠ [] := by
  intro cs
  induction cs with
  | nil => intro inQ; simp [tokSpecAux]
  | cons c cs ih =>
    intro inQ
    simp only [tokSpecAux]
    by_cases h1 : c = '"'
    · simpa [h1] using ih (!inQ)
    · by_cases h2 : (c = ',' && !inQ) = true
      · simp [h1, h2]
      · simp only [h1, h2, if_false, if_neg]
        cases hsp : tokSpecAux inQ cs <;> simp

/-- The accumulator-threading tokenizer agrees with the declarative
one, up to the pending field held in the accumulator. -/
theorem parseCsvAux_spec (cs : List Char) : ∀ (inQ : Bool) (acc : List Char),
    parseCsvAux inQ acc cs =
      (match tokSpecAux inQ cs with
       | [] => [String.mk acc.reverse]
       | f :: fs => String.mk (acc.reverse ++ f) :: fs.map (fun q => String.mk q)) := by
  induction cs with
  | nil => intro inQ acc; simp [parseCsvAux, tokSpecAux]
  | cons c cs ih =>
    intro inQ acc
    by_cases h1 : c = '"'
    · subst h1
      simp [parseCsvAux, tokSpecAux, ih (!inQ) acc]
    · by_cases h2 : (c = ',' && !inQ) = true
      · have h2' := h2
        rw [Bool.and_eq_true] at h2'
        have hc : c = ',' := by simpa using h2'.1
        have hq : inQ = false := by simpa using h2'.2
        subst hc; subst hq
        simp only [parseCsvAux, tokSpecAux, if_neg h1, if_pos h2, ih false []]
        cases hsp : tokSpecAux false cs with
        | nil => exact absurd hsp (tokSpecAux_ne_nil cs false)
        | cons f fs => simp
      · simp only [parseCsvAux, tokSpecAux, if_neg h1, if_neg h2, ih inQ (c :: acc)]
        cases hsp : tokSpecAux inQ cs <;> simp

/--
C7 (confirmed): the tokenizer scans left to right toggling an
inside-quotes flag on each quote, splits on commas outside quotes,
treats commas inside quotes literally, strips the quote characters, and
emits the final field at end of line; `"a,b"` yields the single field
`a,b` and an empty line yields one empty field. -/
theorem tokenizer_quote_toggle_spec :
    (∀ line, parse_csv_line line = tokSpec line) ∧
    parse_csv_line "\"a,b\"" = ["a,b"] ∧
    parse_csv_line "" = [""] ∧
    parse_csv_line "a,b,c" = ["a", "b", "c"] ∧
    (∀ line, parse_csv_line line ≠ []) := by
  have hmain : ∀ line, parse_csv_line line = tokSpec line := by
    intro line
    show parseCsvAux false [] line.data = tokSpec line
    rw [parseCsvAux_spec]
    unfold tokSpec
    cases hsp : tokSpecAux false line.data with
    | nil => exact absurd hsp (tokSpecAux_ne_nil line.data false)
    | cons f fs => simp
  refine ⟨hmain, by decide, by decide, by decide, fun line => ?_⟩
  rw [hmain]
  unfold tokSpec
  cases hsp : tokSpecAux false line.data with
  | nil => exact absurd hsp (tokSpecAux_ne_nil line.data false)
  | cons f fs => simp

/-- The nested-value walk stays in bounds (returns `.ok`) whenever the
segment list is non-empty. -/
theorem setNestedF_ok (parts : List String) : ∀ (fs : List (String × Json)) (v : Json),
    parts ≠ [] → ∃ fs', setNestedF fs parts v = .ok fs' := by
  induction parts with
  | nil => intro fs v h; exact absurd rfl h
  | cons k rest ih =>
    intro fs v _
    cases rest with
    | nil => exact ⟨objSet fs k v, rfl⟩
    | cons r rs =>
      obtain ⟨g', hg'⟩ := ih (childOf fs k) v (by simp)
      exact ⟨objSet fs k (Json.obj g'), by simp [setNestedF, hg']⟩

/-- Members of `amInsert`: every entry either carries the inserted base
or was already present. -/
theorem amInsert_mem : ∀ (ar : List (String × List (Int × String))) (b : String)
    (i : Int) (v : String) (p : String × List (Int × String)),
    p ∈ amInsert ar b i v → p.1 = b ∨ p ∈ ar := by
  intro ar
  induction ar with
  | nil => intro b i v p hp; simp [amInsert] at hp; left; rw [hp]
  | cons q rest ih =>
    intro b i v p hp
    obtain ⟨b', m⟩ := q
    simp only [amInsert] at hp
    split at hp
    · rcases List.mem_cons.mp hp with h | h
      · left; rw [h]
      · right; exact h
    · split at hp
      · rcases List.mem_cons.mp hp with h | h
        · left; rw [h]
        · right; exact List.mem_cons_of_mem _ h
      · rcases List.mem_cons.mp hp with h | h
        · right; rw [h]; exact List.mem_cons_self _ _
        · rcases ih b i v p h with h' | h'
          · left; exact h'
          · right; exact List.mem_cons_of_mem _ h'

/-- Phase 1 of the materializer never makes an out-of-bounds access when
every column header satisfies the bounds predicate, and every base it
records resolves to a non-empty path. -/
theorem phase1_inv : ∀ (cols : List (String × String))
    (st : List (String × List (Int × String)) × List (String × Json)),
    (∀ c ∈ cols, headerBoundsOk c.1 = true) →
    (∀ p ∈ st.1, split_keypath p.1 ≠ []) →
    phase1 cols st ≠ .error .oob ∧
      (∀ ar fs, phase1 cols st = .ok (ar, fs) → ∀ p ∈ ar, split_keypath p.1 ≠ []) := by
  intro cols
  induction cols with
  | nil =>
    intro st _ hst
    refine ⟨by simp [phase1], ?_⟩
    intro ar fs h p hp
    simp [phase1] at h
    subst h
    exact hst p hp
  | cons c cs ih =>
    intro st hok hst
    have hc := hok c (List.mem_cons_self _ _)
    have hcs : ∀ c' ∈ cs, headerBoundsOk c'.1 = true :=
      fun c' h' => hok c' (List.mem_cons_of_mem _ h')
    cases hidx : firstNumIdx (split_keypath c.1) with
    | some j =>
      cases hst2 : stoiOpt ((split_keypath c.1).getD j "") with
      | none =>
        have hcol : colStep st c = .error .stoiFail := by
          simp only [colStep, hidx, hst2]
        refine ⟨by simp [phase1, hcol], ?_⟩
        intro ar fs h
        simp [phase1, hcol] at h
      | some idx =>
        have hcol : colStep st c =
            .ok (amInsert st.1 (joinDots ((split_keypath c.1).take j)) idx c.2, st.2) := by
          simp only [colStep, hidx, hst2]
        have hbase : split_keypath (joinDots ((split_keypath c.1).take j)) ≠ [] := by
          unfold headerBoundsOk at hc
          rw [hidx] at hc
          simpa using hc
        have hins : ∀ p ∈ amInsert st.1 (joinDots ((split_keypath c.1).take j)) idx c.2,
            split_keypath p.1 ≠ [] := by
          intro p hp
          rcases amInsert_mem st.1 _ idx c.2 p hp with h | h
          · rw [h]; exact hbase
          · exact hst p h
        simp only [phase1, hcol]
        exact ih (amInsert st.1 (joinDots ((split_keypath c.1).take j)) idx c.2, st.2) hcs hins
    | none =>
      have hsk : split_keypath c.1 ≠ [] := by
        unfold headerBoundsOk at hc
        rw [hidx] at hc
        simpa using hc
      obtain ⟨fs', hfs'⟩ := setNestedF_ok (split_keypath c.1) st.2 (valJson c.2) hsk
      have hcol : colStep st c = .ok (st.1, fs') := by
        simp [colStep, hidx, set_nested_value, hfs']
      simp only [phase1, hcol]
      exact ih (st.1, fs') hcs hst

/-- Phase 2 of the materializer succeeds whenever every recorded base
resolves to a non-empty path. -/
theorem phase2_ok : ∀ (ar : List (String × List (Int × String)))
    (fs : List (String × Json)),
    (∀ p ∈ ar, split_keypath p.1 ≠ []) →
    ∃ fs', phase2 ar fs = .ok fs' := by
  intro ar
  induction ar with
  | nil => intro fs _; exact ⟨fs, rfl⟩
  | cons q rest ih =>
    intro fs hok
    obtain ⟨base, m⟩ := q
    have hb : split_keypath base ≠ [] := hok (base, m) (List.mem_cons_self _ _)
    obtain ⟨fs1, hfs1⟩ := setNestedF_ok (split_keypath base) fs (Json.arr (mkArrayJson m)) hb
    obtain ⟨fs2, hfs2⟩ := ih fs1 (fun p hp => hok p (List.mem_cons_of_mem _ hp))
    exact ⟨fs2, by simp [phase2, set_nested_json, hfs1, hfs2]⟩

/--
C9 (amended): for every header field whose resolved path is non-empty
and whose array base path (when an array index segment is present) is
also non-empty, every walk of `set_nested_value` stays within bounds:
the materializer never performs the out-of-bounds access on any data
row.  (The unamended claim fails for the empty header field, whose path
has no segments: see the counterexample.) -/
theorem materializer_in_bounds (headers row : List String)
    (hok : ∀ h ∈ headers, headerBoundsOk h = true) :
    buildFields headers row ≠ .error .oob := by
  have hz : ∀ c ∈ headers.zip row, headerBoundsOk c.1 = true := by
    intro c hc
    exact hok c.1 (List.of_mem_zip hc).1
  have h1 := phase1_inv (headers.zip row) ([], []) hz (by simp)
  unfold buildFields
  cases hp1 : phase1 (headers.zip row) ([], []) with
  | error e =>
    cases e with
    | oob => exact absurd hp1 h1.1
    | stoiFail => simp
  | ok st =>
    obtain ⟨ar, fs⟩ := st
    obtain ⟨fs', hfs'⟩ := phase2_ok ar fs (h1.2 ar fs hp1)
    simp [hfs']

/-- Witness for `materializer_in_bounds` at a concrete header list. -/
theorem materializer_in_bounds_witness :
    buildFields ["driver.name", "signal.0"] ["John", "101"] ≠ .error .oob :=
  materializer_in_bounds ["driver.name", "signal.0"] ["John", "101"] (by decide)

/--
C9 (counterexample): the tokenizer can emit the empty field, the empty
header field resolves to a path with no segments, and the materializer's
`set_nested_value` walk on it performs the out-of-bounds
`parts.back()` access (`Err.oob`) as soon as a data row assigns to that
column. -/
theorem empty_header_out_of_bounds :
    parse_csv_line "" = [""] ∧
    split_keypath "" = [] ∧
    set_nested_value [] "" "x" = .error .oob ∧
    buildFields [""] ["x"] = .error .oob :=
  ⟨by decide, by decide, rfl, rfl⟩

/-- `firstNumIdx` finds no index exactly when no segment is numeric. -/
theorem firstNumIdx_none_iff : ∀ parts,
    firstNumIdx parts = none ↔ ∀ p ∈ parts, is_numeric p = false := by
  intro parts
  induction parts with
  | nil => simp [firstNumIdx]
  | cons p ps ih =>
    by_cases hp : is_numeric p
    · simp [firstNumIdx, hp]
    · simp only [firstNumIdx, if_neg hp]
      constructor
      · intro h q hq
        rcases List.mem_cons.mp hq with h' | h'
        · rw [h']; exact Bool.eq_false_iff.mpr hp
        · exact (ih.mp (by simpa using h)) q h'
      · intro h
        have := ih.mpr (fun q hq => h q (List.mem_cons_of_mem _ hq))
        simp [this]

/-- `firstNumIdx` finds the first numeric segment: it is numeric and
everything before it is not. -/
theorem firstNumIdx_some_spec : ∀ parts j, firstNumIdx parts = some j →
    j < parts.length ∧ is_numeric (parts.getD j "") = true ∧
      ∀ i, i < j → is_numeric (parts.getD i "") = false := by
  intro parts
  induction parts with
  | nil => intro j h; simp [firstNumIdx] at h
  | cons p ps ih =>
    intro j h
    by_cases hp : is_numeric p
    · simp [firstNumIdx, hp] at h
      subst h
      exact ⟨by simp, by simpa using hp, fun i hi => absurd hi (Nat.not_lt_zero i)⟩
    · simp only [firstNumIdx, if_neg hp] at h
      cases hps : firstNumIdx ps with
      | none => rw [hps] at h; simp at h
      | some j' =>
        rw [hps] at h
        simp at h
        subst h
        obtain ⟨hlen, hnum, hbefore⟩ := ih j' hps
        refine ⟨by simpa using hlen, by simpa using hnum, ?_⟩
        intro i hi
        cases i with
        | zero => simpa using Bool.eq_false_iff.mpr hp
        | succ i' => simpa using hbefore i' (Nat.lt_of_succ_lt_succ hi)

/--
C4 (amended): a header path segment is treated as an array index exactly
when the whole segment is consumed by `strtod` — which also admits
negative, exponent and hex forms, not only non-negative integers; the
first such segment, scanning left to right, is the attachment point
(its index is the integer prefix `std::stoi` parses), and the segments
before it, joined with dots, form the array's base path. -/
theorem array_index_classification :
    (∀ parts, firstNumIdx parts = none ↔ ∀ p ∈ parts, is_numeric p = false) ∧
    (∀ parts j, firstNumIdx parts = some j →
      j < parts.length ∧ is_numeric (parts.getD j "") = true ∧
        ∀ i, i < j → is_numeric (parts.getD i "") = false) ∧
    (∀ st (h v : String) j idx, firstNumIdx (split_keypath h) = some j →
      stoiOpt ((split_keypath h).getD j "") = some idx →
      colStep st (h, v) =
        .ok (amInsert st.1 (joinDots ((split_keypath h).take j)) idx v, st.2)) := by
  refine ⟨firstNumIdx_none_iff, firstNumIdx_some_spec, ?_⟩
  intro st h v j idx hj hst
  simp only [colStep, hj, hst]

/-- Witness for `array_index_classification` at concrete inputs. -/
theorem array_index_classification_witness :
    colStep (([], []) : List (String × List (Int × String)) × List (String × Json))
        ("sig.0", "7") =
      .ok (amInsert [] (joinDots ((split_keypath "sig.0").take 1)) 0 "7", []) :=
  array_index_classification.2.2 ([], []) "sig.0" "7" 1 0 (by decide) (by decide)

/--
C4 (counterexample): the claim restricts array indices to non-negative
integers, but the code classifies any `strtod`-consumable segment as an
index: `-1` is numeric, so header `a.-1` builds an array (here empty,
since the only index is negative and the array is sized by
`max_index + 1` from `max_index = max(-1, -1)`), not an object with key
`-1`. -/
theorem negative_segment_is_index :
    is_numeric "-1" = true ∧
    buildFields ["a.-1"] ["v"] = .ok [("a", Json.arr [])] ∧
    (∀ g, Json.arr ([] : List Json) ≠ Json.obj g) :=
  ⟨by decide, rfl, fun _ h => Json.noConfusion h⟩

/-- The scan leaves the file contents, the cached headers and the loop
flag untouched. -/
theorem scanData_frame (s : St) :
    (scanData s).2.lines = s.lines ∧ (scanData s).2.headers = s.headers ∧
      (scanData s).2.loopEnabled = s.loopEnabled := by
  unfold scanData
  by_cases hf : s.failbit
  · simp [hf]
  · simp only [hf, Bool.false_eq_true, if_false]
    cases hfd : findData (s.lines.drop s.pos) with
    | none => simp
    | some p => obtain ⟨i, l⟩ := p; simp

/-- When the scan finds no data line, it ends with `eofbit` set —
provided the stream never had `failbit` without `eofbit` (which only an
internal failed `seekg` can produce). -/
theorem scanData_none_eof (s : St) (hfe : s.failbit = true → s.eofbit = true)
    (h : (scanData s).1 = none) : (scanData s).2.eofbit = true := by
  unfold scanData at *
  by_cases hf : s.failbit
  · simp only [hf, if_true]; exact hfe hf
  · simp only [hf, Bool.false_eq_true, if_false] at h ⊢
    cases hfd : findData (s.lines.drop s.pos) with
    | none => simp [hfd]
    | some p =>
      obtain ⟨i, l⟩ := p
      rw [hfd] at h
      simp at h

/--
C2 (confirmed): when `advance` finds no data line before end of source,
then: with the Loop Flag unset it returns the sentinel empty (`null`)
record and raises nothing; with the Loop Flag set it performs one
implicit `reset()` and retries the scan exactly once, materializing the
line the retry finds, and returns the sentinel empty record if the retry
finds nothing either.  (The hypothesis `failbit → eofbit` rules out the
stream states only an internal failed `seekg` restore can produce.) -/
theorem advance_exhaustion (s : St) (hfe : s.failbit = true → s.eofbit = true)
    (hnone : (scanData s).1 = none) :
    (s.loopEnabled = false → advance s = (.ok Json.null, (scanData s).2)) ∧
    (s.loopEnabled = true →
      advance s =
        match scanData (reset (scanData s).2) with
        | (some line, s2) => (recordE s2.headers line, s2)
        | (none, s2) => (.ok Json.null, s2)) := by
  have hpair : scanData s = (none, (scanData s).2) := by
    cases hsc : scanData s with
    | mk o s2 => rw [hsc] at hnone; simp only at hnone; rw [hnone]
  have heof : (scanData s).2.eofbit = true := scanData_none_eof s hfe hnone
  have hloop : (scanData s).2.loopEnabled = s.loopEnabled := (scanData_frame s).2.2
  constructor
  · intro hl
    unfold advance
    rw [hpair]
    simp only [hloop, hl, Bool.false_and, Bool.false_eq_true, if_false]
  · intro hl
    unfold advance
    rw [hpair]
    simp only [hloop, hl, heof, Bool.and_self, if_true]

/-- Witness for `advance_exhaustion`: a just-exhausted two-line source
with the loop flag unset yields the sentinel `null` record. -/
theorem advance_exhaustion_witness :
    advance ⟨["h", "1"], 2, false, false, ["h"], false⟩ =
      (.ok Json.null, (scanData ⟨["h", "1"], 2, false, false, ["h"], false⟩).2) :=
  (advance_exhaustion ⟨["h", "1"], 2, false, false, ["h"], false⟩
    (by intro h; exact absurd h (by decide)) (by decide)).1 rfl

/--
C6 (confirmed): `reset()` depends only on the file contents — from any
prior cursor position and stream flags (exhausted included) it restores
exactly the state the constructor left, so draining by repeated
`advance` with the Loop Flag unset reproduces the identical record
sequence as the first drain; and `reset` is idempotent on every state. -/
theorem reset_replays_identically :
    (∀ (lines : List String) (c s : St), construct lines = some c →
      s.lines = lines → s.headers = c.headers → s.loopEnabled = false →
      reset s = c ∧ drainRecords (reset s) = drainRecords c) ∧
    (∀ s : St, reset (reset s) = reset s) := by
  constructor
  · intro lines c s hc hl hh hlp
    unfold construct at hc
    cases hfd : findData lines with
    | none => rw [hfd] at hc; simp at hc
    | some p =>
      obtain ⟨i, l⟩ := p
      rw [hfd] at hc
      simp only [Option.some.injEq] at hc
      have hr : reset s = c := by
        unfold reset
        rw [hl, hfd, ← hc]
        rw [← hc] at hh
        cases s with
        | mk slines spos seof sfail sheaders sloop =>
          simp only at hl hh hlp
          simp [hl, hh, hlp]
      exact ⟨hr, by rw [hr]⟩
  · intro s
    cases hfd : findData s.lines with
    | some p =>
      obtain ⟨i, l⟩ := p
      have h1 : reset s = { s with pos := i + 1, eofbit := false, failbit := false } := by
        unfold reset; rw [hfd]
      rw [h1]
      unfold reset
      simp [hfd]
    | none =>
      have h1 : reset s =
          { s with pos := s.lines.length, eofbit := true, failbit := true } := by
        unfold reset; rw [hfd]
      rw [h1]
      unfold reset
      simp [hfd]

/-- Witness for `reset_replays_identically` at a concrete source and a
scrambled prior state. -/
theorem reset_replays_identically_witness :
    reset ⟨["h", "1"], 2, true, true, ["h"], false⟩ =
        ⟨["h", "1"], 1, false, false, ["h"], false⟩ ∧
      drainRecords (reset ⟨["h", "1"], 2, true, true, ["h"], false⟩) =
        drainRecords ⟨["h", "1"], 1, false, false, ["h"], false⟩ :=
  reset_replays_identically.1 ["h", "1"] ⟨["h", "1"], 1, false, false, ["h"], false⟩
    ⟨["h", "1"], 2, true, true, ["h"], false⟩ (by decide) rfl rfl rfl

/-- Characters with equal code points are equal. -/
theorem char_toNat_inj {a b : Char} (h : a.toNat = b.toNat) : a = b := by
  unfold Char.toNat at h
  exact Char.ext (UInt32.toNat.inj h)

/-- `lexLt` is irreflexive. -/
theorem lexLt_irrefl : ∀ cs, lexLt cs cs = false := by
  intro cs
  induction cs with
  | nil => rfl
  | cons c cs ih => simp [lexLt, ih]

/-- `lexLt` is transitive. -/
theorem lexLt_trans : ∀ a b c, lexLt a b = true → lexLt b c = true → lexLt a c = true := by
  intro a
  induction a with
  | nil =>
    intro b c hab hbc
    cases b with
    | nil => exact absurd hab (by simp [lexLt])
    | cons y ys =>
      cases c with
      | nil => exact absurd hbc (by simp [lexLt])
      | cons z zs => simp [lexLt]
  | cons x xs ih =>
    intro b c hab hbc
    cases b with
    | nil => exact absurd hab (by simp [lexLt])
    | cons y ys =>
      cases c with
      | nil => exact absurd hbc (by simp [lexLt])
      | cons z zs =>
        simp only [lexLt] at hab hbc ⊢
        rcases Nat.lt_trichotomy x.toNat y.toNat with h1 | h1 | h1
        · rcases Nat.lt_trichotomy y.toNat z.toNat with h2 | h2 | h2
          · simp [Nat.lt_trans h1 h2]
          · simp [h2 ▸ h1]
          · rw [if_pos h2] at hbc
            rw [if_neg (Nat.lt_asymm h2)] at hbc
            simp at hbc
        · rcases Nat.lt_trichotomy y.toNat z.toNat with h2 | h2 | h2
          · simp [h1 ▸ h2]
          · have hxz : x.toNat = z.toNat := h1.trans h2
            rw [if_neg (by rw [h1]; exact Nat.lt_irrefl _),
                if_neg (by rw [h1]; exact Nat.lt_irrefl _)] at hab
            rw [if_neg (by rw [h2]; exact Nat.lt_irrefl _),
                if_neg (by rw [h2]; exact Nat.lt_irrefl _)] at hbc
            rw [if_neg (by rw [hxz]; exact Nat.lt_irrefl _),
                if_neg (by rw [hxz]; exact Nat.lt_irrefl _)]
            exact ih ys zs hab hbc
          · rw [if_pos h2] at hbc
            rw [if_neg (Nat.lt_asymm h2)] at hbc
            simp at hbc
        · rw [if_pos h1] at hab
          rw [if_neg (Nat.lt_asymm h1)] at hab
          simp at hab

/-- `lexLt` is connected: distinct lists compare one way or the other. -/
theorem lexLt_conn : ∀ a b, a ≠ b → lexLt a b = true ∨ lexLt b a = true := by
  intro a
  induction a with
  | nil =>
    intro b hne
    cases b with
    | nil => exact absurd rfl hne
    | cons y ys => left; simp [lexLt]
  | cons x xs ih =>
    intro b hne
    cases b with
    | nil => right; simp [lexLt]
    | cons y ys =>
      rcases Nat.lt_trichotomy x.toNat y.toNat with h1 | h1 | h1
      · left; simp [lexLt, h1]
      · have hxy : x = y := char_toNat_inj h1
        subst hxy
        have hne' : xs ≠ ys := fun h => hne (h ▸ rfl)
        rcases ih ys hne' with h | h
        · left; simp [lexLt, h]
        · right; simp [lexLt, h]
      · right; simp [lexLt, h1]

/-- `strLt` is irreflexive. -/
theorem strLt_irrefl (a : String) : strLt a a = false := lexLt_irrefl a.data

/-- `strLt` is transitive. -/
theorem strLt_trans {a b c : String} (h1 : strLt a b = true) (h2 : strLt b c = true) :
    strLt a c = true := lexLt_trans a.data b.data c.data h1 h2

/-- `strLt` is connected. -/
theorem strLt_conn {a b : String} (h : a ≠ b) : strLt a b = true ∨ strLt b a = true :=
  lexLt_conn a.data b.data (fun hd => h (by cases a; cases b; exact congrArg String.mk hd))

/-- Looking up the key just set yields the value just set. -/
theorem getKey_objSet_self : ∀ (fs : List (String × Json)) (k : String) (v : Json),
    getKey (objSet fs k v) k = some v := by
  intro fs
  induction fs with
  | nil => intro k v; simp [objSet, getKey]
  | cons q rest ih =>
    intro k v
    obtain ⟨k', v'⟩ := q
    simp only [objSet]
    by_cases h1 : strLt k k' = true
    · simp [h1, getKey]
    · by_cases h2 : k = k'
      · simp [h1, h2, getKey, strLt_irrefl]
      · simp [h1, h2, getKey, ih]

/-- Setting one key leaves every other key's value unchanged. -/
theorem getKey_objSet_other : ∀ (fs : List (String × Json)) (k k'' : String) (v : Json),
    k'' ≠ k → getKey (objSet fs k v) k'' = getKey fs k'' := by
  intro fs
  induction fs with
  | nil => intro k k'' v hne; simp [objSet, getKey, hne]
  | cons q rest ih =>
    intro k k'' v hne
    obtain ⟨k', v'⟩ := q
    simp only [objSet]
    by_cases h1 : strLt k k' = true
    · simp [h1, getKey, hne]
    · by_cases h2 : k = k'
      · subst h2
        simp [h1, getKey, hne]
      · simp only [h1, h2, if_false, if_neg]
        by_cases h3 : k'' = k'
        · simp [getKey, h3]
        · simp [getKey, h3, ih k k'' v hne]

/-- Setting the same key twice keeps only the second value. -/
theorem objSet_objSet : ∀ (fs : List (String × Json)) (k : String) (a b : Json),
    objSet (objSet fs k a) k b = objSet fs k b := by
  intro fs
  induction fs with
  | nil => intro k a b; simp [objSet, strLt_irrefl]
  | cons q rest ih =>
    intro k a b
    obtain ⟨k', v'⟩ := q
    simp only [objSet]
    by_cases h1 : strLt k k' = true
    · simp [h1, objSet, strLt_irrefl]
    · by_cases h2 : k = k'
      · simp [h1, h2, objSet, strLt_irrefl]
      · simp [h1, h2, objSet, ih]

/-- After a successful nested set, looking up the same path yields the
value that was set. -/
theorem getNested_setNestedF_self : ∀ (parts : List String) (fs fs' : List (String × Json))
    (v : Json), setNestedF fs parts v = .ok fs' → getNested fs' parts = some v := by
  intro parts
  induction parts with
  | nil => intro fs fs' v h; exact absurd h (by simp [setNestedF])
  | cons k rest ih =>
    intro fs fs' v h
    cases rest with
    | nil =>
      simp only [setNestedF, Except.ok.injEq] at h
      subst h
      simp [getNested, getKey_objSet_self]
    | cons r rs =>
      simp only [setNestedF] at h
      cases hg : setNestedF (childOf fs k) (r :: rs) v with
      | error e => rw [hg] at h; simp at h
      | ok g' =>
        rw [hg] at h
        simp only [Except.ok.injEq] at h
        subst h
        simp only [getNested, getKey_objSet_self]
        exact ih _ g' v hg

/--
C10 (confirmed): the nested-value walk silently replaces a non-object
value on its path by a fresh empty object and continues; setting an
existing leaf key overwrites its value; for duplicate header paths in
one row the later-processed assignment wins with no error; and all
scalar assignments are processed before all array attachments (so an
array column overrides a same-path scalar column even when the scalar
column comes later in the row). -/
theorem conflicting_paths_later_wins :
    (∀ (fs : List (String × Json)) (k r : String) (rs : List String) (v w : Json),
      getKey fs k = some w → (∀ g, w ≠ Json.obj g) →
      setNestedF fs (k :: r :: rs) v =
        setNestedF (objSet fs k (Json.obj [])) (k :: r :: rs) v) ∧
    (∀ (parts : List String) (fs fs' : List (String × Json)) (v : Json),
      setNestedF fs parts v = .ok fs' → getNested fs' parts = some v) ∧
    (∀ (h v1 v2 : String), headerBoundsOk h = true →
      firstNumIdx (split_keypath h) = none →
      ∃ fs, buildFields [h, h] [v1, v2] = .ok fs ∧
        getNested fs (split_keypath h) = some (valJson v2)) ∧
    buildFields ["a.0", "a"] ["1", "2"] = .ok [("a", Json.arr [Json.num (RVal.num 1 1)])] := by
  refine ⟨?_, getNested_setNestedF_self, ?_, rfl⟩
  · intro fs k r rs v w hw hnotobj
    have hmatch : childOf fs k = [] := by
      unfold childOf
      rw [hw]
      cases w with
      | obj g => exact absurd rfl (hnotobj g)
      | null => rfl
      | str s => rfl
      | num n => rfl
      | arr l => rfl
    have hmatch2 : childOf (objSet fs k (Json.obj [])) k = [] := by
      unfold childOf
      rw [getKey_objSet_self]
    simp only [setNestedF, hmatch, hmatch2]
    cases setNestedF [] (r :: rs) v with
    | error e => rfl
    | ok g' => simp [objSet_objSet]
  · intro h v1 v2 hbo hidx
    have hsk : split_keypath h ≠ [] := by
      unfold headerBoundsOk at hbo
      rw [hidx] at hbo
      simpa using hbo
    obtain ⟨fs1, hfs1⟩ := setNestedF_ok (split_keypath h) [] (valJson v1) hsk
    obtain ⟨fs2, hfs2⟩ := setNestedF_ok (split_keypath h) fs1 (valJson v2) hsk
    have hcol1 : colStep ([], []) (h, v1) = .ok ([], fs1) := by
      simp only [colStep, hidx, set_nested_value, hfs1]
    have hcol2 : colStep (([], fs1) :
        List (String × List (Int × String)) × List (String × Json)) (h, v2) =
        .ok ([], fs2) := by
      simp only [colStep, hidx, set_nested_value, hfs2]
    refine ⟨fs2, ?_, getNested_setNestedF_self _ _ _ _ hfs2⟩
    simp only [buildFields, List.zip, List.zipWith, phase1, hcol1, hcol2, phase2]

/-- Witness for `conflicting_paths_later_wins` at concrete inputs. -/
theorem conflicting_paths_later_wins_witness :
    setNestedF [("x", Json.num (RVal.num 1 1))] ["x", "y"] (Json.str "v") =
      setNestedF (objSet [("x", Json.num (RVal.num 1 1))] "x" (Json.obj []))
        ["x", "y"] (Json.str "v") :=
  conflicting_paths_later_wins.1 [("x", Json.num (RVal.num 1 1))] "x" "y" []
    (Json.str "v") (Json.num (RVal.num 1 1)) rfl (fun _ h => Json.noConfusion h)

/-- Path lookup in the empty object fails. -/
theorem getNested_nil : ∀ (p : List String), p ≠ [] → getNested [] p = none := by
  intro p hp
  cases p with
  | nil => exact absurd rfl hp
  | cons k p' => cases p' <;> simp [getNested, getKey]

/-- Path lookup through a first segment equals lookup of the child
object (the fresh empty object standing in for a missing or non-object
child, where lookup fails on both sides). -/
theorem getNested_cons_child (fs : List (String × Json)) (k : String)
    (p' : List String) (hp : p' ≠ []) :
    getNested fs (k :: p') = getNested (childOf fs k) p' := by
  cases p' with
  | nil => exact absurd rfl hp
  | cons r rs =>
    simp only [getNested, childOf]
    cases hgk : getKey fs k with
    | none => simp [getNested_nil (r :: rs) (by simp)]
    | some w =>
      cases w with
      | obj g => simp
      | null => simp [getNested_nil (r :: rs) (by simp)]
      | str s => simp [getNested_nil (r :: rs) (by simp)]
      | num n => simp [getNested_nil (r :: rs) (by simp)]
      | arr l => simp [getNested_nil (r :: rs) (by simp)]

/-- Inversion of a successful nested set on a path of two or more
segments. -/
theorem setNestedF_cons (fs : List (String × Json)) (k r : String) (rs : List String)
    (v : Json) (fs' : List (String × Json))
    (h : setNestedF fs (k :: r :: rs) v = .ok fs') :
    ∃ g', setNestedF (childOf fs k) (r :: rs) v = .ok g' ∧
      fs' = objSet fs k (Json.obj g') := by
  simp only [setNestedF] at h
  cases hg : setNestedF (childOf fs k) (r :: rs) v with
  | error e => rw [hg] at h; simp at h
  | ok g' =>
    rw [hg] at h
    simp only [Except.ok.injEq] at h
    exact ⟨g', rfl, h.symm⟩

/-- The child right after writing an object at a key is that object. -/
theorem childOf_objSet_self (fs : List (String × Json)) (k : String)
    (g : List (String × Json)) : childOf (objSet fs k (Json.obj g)) k = g := by
  unfold childOf
  rw [getKey_objSet_self]

/-- A write at one key does not change path lookups starting at another
key. -/
theorem getNested_objSet_other (fs : List (String × Json)) (kq kp : String) (w : Json)
    (p' : List String) (hne : kp ≠ kq) :
    getNested (objSet fs kq w) (kp :: p') = getNested fs (kp :: p') := by
  cases p' with
  | nil => simp [getNested, getKey_objSet_other fs kq kp w hne]
  | cons r rs =>
    simp only [getNested]
    rw [getKey_objSet_other fs kq kp w hne]

/-- Frame rule for the nested-value walk: a write at a path that
diverges from `p` (they differ at a position both possess) leaves the
value at `p` unchanged. -/
theorem setNestedF_frame : ∀ (i : Nat) (p q : List String)
    (fs fs' : List (String × Json)) (v : Json),
    i < p.length → i < q.length → p.take i = q.take i → p.getD i "" ≠ q.getD i "" →
    setNestedF fs q v = .ok fs' → getNested fs' p = getNested fs p := by
  intro i
  induction i with
  | zero =>
    intro p q fs fs' v hp hq _ hd hset
    cases p with
    | nil => simp at hp
    | cons kp p' =>
      cases q with
      | nil => simp at hq
      | cons kq q' =>
        have hkk : kp ≠ kq := by simpa using hd
        cases q' with
        | nil =>
          simp only [setNestedF, Except.ok.injEq] at hset
          subst hset
          exact getNested_objSet_other fs kq kp v p' hkk
        | cons r rs =>
          obtain ⟨g', _, rfl⟩ := setNestedF_cons fs kq r rs v fs' hset
          exact getNested_objSet_other fs kq kp (Json.obj g') p' hkk
  | succ i' ih =>
    intro p q fs fs' v hp hq htake hd hset
    cases p with
    | nil => simp at hp
    | cons kp p' =>
      cases q with
      | nil => simp at hq
      | cons kq q' =>
        obtain ⟨hkeq, htake'⟩ : kp = kq ∧ p'.take i' = q'.take i' := by
          simpa using htake
        subst hkeq
        have hp' : i' < p'.length := by simpa using hp
        have hq' : i' < q'.length := by simpa using hq
        have hd' : p'.getD i' "" ≠ q'.getD i' "" := by simpa using hd
        cases q' with
        | nil => simp at hq'
        | cons r rs =>
          obtain ⟨g', hg, rfl⟩ := setNestedF_cons fs kp r rs v fs' hset
          have hpne : p' ≠ [] := by
            intro h; rw [h] at hp'; simp at hp'
          rw [getNested_cons_child (objSet fs kp (Json.obj g')) kp p' hpne,
              getNested_cons_child fs kp p' hpne, childOf_objSet_self]
          exact ih p' (r :: rs) (childOf fs kp) g' v hp' hq' htake' hd' hg

/-- Frame rule for the array-attachment phase: attaching arrays at bases
that all diverge from `p` leaves the value at `p` unchanged. -/
theorem phase2_frame : ∀ (ar : List (String × List (Int × String)))
    (fs0 fs : List (String × Json)) (p : List String),
    phase2 ar fs0 = .ok fs →
    (∀ q ∈ ar, pathsDiverge p (split_keypath q.1)) →
    getNested fs p = getNested fs0 p := by
  intro ar
  induction ar with
  | nil => intro fs0 fs p h _; simp [phase2] at h; rw [h]
  | cons q rest ih =>
    intro fs0 fs p h hdiv
    obtain ⟨base, m⟩ := q
    simp only [phase2, set_nested_json] at h
    cases hset : setNestedF fs0 (split_keypath base) (Json.arr (mkArrayJson m)) with
    | error e => rw [hset] at h; simp at h
    | ok fs1 =>
      rw [hset] at h
      obtain ⟨i, hip, hiq, ht, hd⟩ := hdiv (base, m) (List.mem_cons_self _ _)
      have h1 : getNested fs1 p = getNested fs0 p :=
        setNestedF_frame i p (split_keypath base) fs0 fs1 _ hip hiq ht hd hset
      rw [← h1]
      exact ih fs1 fs p h (fun q hq => hdiv q (List.mem_cons_of_mem _ hq))

/-- After the array-attachment phase, a base whose path diverges from
every other base's path holds exactly its own array. -/
theorem phase2_lookup : ∀ (ar : List (String × List (Int × String)))
    (fs0 fs : List (String × Json)) (base : String) (m : List (Int × String)),
    phase2 ar fs0 = .ok fs →
    (base, m) ∈ ar →
    List.Pairwise (fun x y => strLt x.1 y.1 = true) ar →
    (∀ q ∈ ar, q.1 ≠ base → pathsDiverge (split_keypath base) (split_keypath q.1)) →
    getNested fs (split_keypath base) = some (Json.arr (mkArrayJson m)) := by
  intro ar
  induction ar with
  | nil => intro fs0 fs base m _ hmem; simp at hmem
  | cons q rest ih =>
    intro fs0 fs base m h hmem hpw hdiv
    obtain ⟨b0, m0⟩ := q
    simp only [phase2, set_nested_json] at h
    cases hset : setNestedF fs0 (split_keypath b0) (Json.arr (mkArrayJson m0)) with
    | error e => rw [hset] at h; simp at h
    | ok fs1 =>
      rw [hset] at h
      rcases List.mem_cons.mp hmem with heq | hmem'
      · have hb : base = b0 := congrArg Prod.fst heq
        have hm : m = m0 := congrArg Prod.snd heq
        subst hb; subst hm
        have hself : getNested fs1 (split_keypath base) =
            some (Json.arr (mkArrayJson m)) :=
          getNested_setNestedF_self _ _ _ _ hset
        have hdivrest : ∀ q ∈ rest,
            pathsDiverge (split_keypath base) (split_keypath q.1) := by
          intro q hq
          have hlt : strLt base q.1 = true := (List.pairwise_cons.mp hpw).1 q hq
          have hne : q.1 ≠ base := by
            intro he
            rw [he] at hlt
            exact absurd hlt (by simp [strLt_irrefl])
          exact hdiv q (List.mem_cons_of_mem _ hq) hne
        rw [phase2_frame rest fs1 fs (split_keypath base) h hdivrest]
        exact hself
      · have hb0 : b0 ≠ base := by
          have hlt : strLt b0 base = true := by
            simpa using (List.pairwise_cons.mp hpw).1 (base, m) hmem'
          intro he
          rw [he] at hlt
          exact absurd hlt (by simp [strLt_irrefl])
        exact ih fs1 fs base m h hmem' (List.pairwise_cons.mp hpw).2
          (fun q hq hne => hdiv q (List.mem_cons_of_mem _ hq) hne)

/-- `amInsert` keeps the outer map strictly sorted by base key. -/
theorem amInsert_pairwise : ∀ (ar : List (String × List (Int × String)))
    (b : String) (i : Int) (v : String),
    List.Pairwise (fun x y => strLt x.1 y.1 = true) ar →
    List.Pairwise (fun x y => strLt x.1 y.1 = true) (amInsert ar b i v) := by
  intro ar
  induction ar with
  | nil => intro b i v _; simp [amInsert]
  | cons q rest ih =>
    intro b i v hpw
    obtain ⟨b', m⟩ := q
    obtain ⟨hhead, htail⟩ := List.pairwise_cons.mp hpw
    simp only [amInsert]
    by_cases h1 : strLt b b' = true
    · simp only [h1, if_true]
      refine List.pairwise_cons.mpr ⟨?_, hpw⟩
      intro q hq
      rcases List.mem_cons.mp hq with he | hq'
      · rw [he]; exact h1
      · exact strLt_trans h1 (hhead q hq')
    · by_cases h2 : b = b'
      · subst h2
        simp only [strLt_irrefl, Bool.false_eq_true, if_false, if_pos rfl]
        exact List.pairwise_cons.mpr ⟨hhead, htail⟩
      · simp only [h1, h2, if_false]
        refine List.pairwise_cons.mpr ⟨?_, ih b i v htail⟩
        intro q hq
        rcases amInsert_mem rest b i v q hq with he | hq'
        · rw [he]
          rcases strLt_conn h2 with h | h
          · exact absurd h h1
          · exact h
        · exact hhead q hq'

/-- Phase 1 keeps the outer array map strictly sorted by base key. -/
theorem phase1_pairwise : ∀ (cols : List (String × String))
    (st : List (String × List (Int × String)) × List (String × Json)),
    List.Pairwise (fun x y => strLt x.1 y.1 = true) st.1 →
    ∀ ar fs, phase1 cols st = .ok (ar, fs) →
      List.Pairwise (fun x y => strLt x.1 y.1 = true) ar := by
  intro cols
  induction cols with
  | nil =>
    intro st hpw ar fs h
    simp [phase1] at h
    subst h
    exact hpw
  | cons c cs ih =>
    intro st hpw ar fs h
    simp only [phase1] at h
    cases hcol : colStep st c with
    | error e => rw [hcol] at h; simp at h
    | ok st' =>
      rw [hcol] at h
      refine ih st' ?_ ar fs h
      cases hidx : firstNumIdx (split_keypath c.1) with
      | some j =>
        cases hst2 : stoiOpt ((split_keypath c.1).getD j "") with
        | none =>
          have hc2 : colStep st c = .error .stoiFail := by
            simp only [colStep, hidx, hst2]
          rw [hc2] at hcol
          simp at hcol
        | some idx =>
          have hc2 : colStep st c =
              .ok (amInsert st.1 (joinDots ((split_keypath c.1).take j)) idx c.2, st.2) := by
            simp only [colStep, hidx, hst2]
          rw [hc2] at hcol
          simp only [Except.ok.injEq] at hcol
          rw [← hcol]
          exact amInsert_pairwise st.1 _ idx c.2 hpw
      | none =>
        cases hsv : set_nested_value st.2 c.1 c.2 with
        | error e =>
          have hc2 : colStep st c = .error e := by
            simp only [colStep, hidx, hsv]
          rw [hc2] at hcol
          simp at hcol
        | ok fs2 =>
          have hc2 : colStep st c = .ok (st.1, fs2) := by
            simp only [colStep, hidx, hsv]
          rw [hc2] at hcol
          simp only [Except.ok.injEq] at hcol
          rw [← hcol]
          exact hpw

/--
C8 (amended): for each array base path whose segment path diverges from
every other base's segment path (no base extends or equals another after
resolution), the materialized record holds at that base exactly the
array of length `max_index + 1` whose entry `i` is the numeric-detected
value recorded for index `i`, or `null` when index `i` was never
observed.  (A base that is a segment-prefix of another base is clobbered
by the later attachment walk: see the counterexample.) -/
theorem sparse_arrays_at_diverging_bases (headers row : List String)
    (ar : List (String × List (Int × String))) (fs2 fs : List (String × Json))
    (base : String) (m : List (Int × String))
    (h1 : phase1 (headers.zip row) ([], []) = .ok (ar, fs2))
    (h2 : phase2 ar fs2 = .ok fs)
    (hmem : (base, m) ∈ ar)
    (hdiv : ∀ q ∈ ar, q.1 ≠ base → pathsDiverge (split_keypath base) (split_keypath q.1)) :
    buildFields headers row = .ok fs ∧
    getNested fs (split_keypath base) = some (Json.arr (mkArrayJson m)) ∧
    (mkArrayJson m).length = (maxIdx m + 1).toNat ∧
    (∀ i : Nat, i < (maxIdx m + 1).toNat →
      (mkArrayJson m).getD i Json.null =
        (match imFind m (i : Int) with
         | some v => valJson v
         | none => Json.null)) := by
  have hpw := phase1_pairwise (headers.zip row) ([], []) (by simp) ar fs2 h1
  refine ⟨?_, phase2_lookup ar fs2 fs base m h2 hmem hpw hdiv, ?_, ?_⟩
  · unfold buildFields
    rw [h1]
    exact h2
  · unfold mkArrayJson
    rw [List.length_map, List.length_range]
  · intro i hi
    unfold mkArrayJson
    have hlen : i < ((List.range (maxIdx m + 1).toNat).map
        (fun (i : Nat) => match imFind m (i : Int) with
          | some v => valJson v
          | none => Json.null)).length := by
      rw [List.length_map, List.length_range]
      exact hi
    rw [List.getD_eq_getElem _ _ hlen, List.getElem_map, List.getElem_range]

/-- Witness for `sparse_arrays_at_diverging_bases`: sparse indices 0 and
2 under base `sig` produce `[7, null, 9]`. -/
theorem sparse_arrays_witness :
    buildFields ["sig.0", "sig.2"] ["7", "9"] = .ok [("sig",
      Json.arr [Json.num (RVal.num 7 1), Json.null, Json.num (RVal.num 9 1)])] ∧
    getNested [("sig",
        Json.arr [Json.num (RVal.num 7 1), Json.null, Json.num (RVal.num 9 1)])]
      (split_keypath "sig") =
      some (Json.arr (mkArrayJson [(0, "7"), (2, "9")])) ∧
    (mkArrayJson [(0, "7"), (2, "9")]).length = (maxIdx [(0, "7"), (2, "9")] + 1).toNat ∧
    (∀ i : Nat, i < (maxIdx [(0, "7"), (2, "9")] + 1).toNat →
      (mkArrayJson [(0, "7"), (2, "9")]).getD i Json.null =
        (match imFind [(0, "7"), (2, "9")] (i : Int) with
         | some v => valJson v
         | none => Json.null)) :=
  sparse_arrays_at_diverging_bases ["sig.0", "sig.2"] ["7", "9"]
    [("sig", [(0, "7"), (2, "9")])] []
    [("sig", Json.arr [Json.num (RVal.num 7 1), Json.null, Json.num (RVal.num 9 1)])]
    "sig" [(0, "7"), (2, "9")] rfl rfl (by simp)
    (by
      intro q hq hne
      simp only [List.mem_singleton] at hq
      rw [hq] at hne
      exact absurd rfl hne)

/--
C8 (counterexample): with the two bases `a` and `a.b` in one row, the
base `a` does not hold its array in the final record — the later
attachment at `a.b` walks through `a`, finds the array (not an object)
and replaces it, so the claim fails as stated for every base path that
is a segment-prefix of another. -/
theorem nested_base_clobbers_outer_array :
    buildFields ["a.0", "a.b.0"] ["1", "2"] =
      .ok [("a", Json.obj [("b", Json.arr [Json.num (RVal.num 2 1)])])] ∧
    (∀ elems, getNested [("a", Json.obj [("b", Json.arr [Json.num (RVal.num 2 1)])])]
      ["a"] ≠ some (Json.arr elems)) := by
  refine ⟨rfl, ?_⟩
  intro elems h
  rw [show getNested [("a", Json.obj [("b", Json.arr [Json.num (RVal.num 2 1)])])] ["a"] =
      some (Json.obj [("b", Json.arr [Json.num (RVal.num 2 1)])]) from rfl] at h
  exact Json.noConfusion (Option.some.inj h)

/-- The tokenizer always produces at least one field (the final push is
unconditional). -/
theorem parse_csv_line_ne_nil (line : String) : parse_csv_line line ≠ [] := by
  show parseCsvAux false [] line.data ≠ []
  rw [parseCsvAux_spec]
  cases hsp : tokSpecAux false line.data with
  | nil => exact absurd hsp (tokSpecAux_ne_nil line.data false)
  | cons f fs => simp

/-- `objSet` never returns the empty map. -/
theorem objSet_ne_nil : ∀ (fs : List (String × Json)) (k : String) (v : Json),
    objSet fs k v ≠ [] := by
  intro fs k v
  cases fs with
  | nil => simp [objSet]
  | cons q rest =>
    obtain ⟨k', v'⟩ := q
    simp only [objSet]
    split
    · simp
    · split <;> simp

/-- A successful nested set never returns the empty map. -/
theorem setNestedF_ne_nil : ∀ (parts : List String) (fs fs' : List (String × Json))
    (v : Json), setNestedF fs parts v = .ok fs' → fs' ≠ [] := by
  intro parts fs fs' v h
  cases parts with
  | nil => simp [setNestedF] at h
  | cons k rest =>
    cases rest with
    | nil =>
      simp only [setNestedF, Except.ok.injEq] at h
      rw [← h]
      exact objSet_ne_nil fs k v
    | cons r rs =>
      obtain ⟨g', _, rfl⟩ := setNestedF_cons fs k r rs v fs' h
      exact objSet_ne_nil fs k (Json.obj g')

/-- `amInsert` never returns the empty map. -/
theorem amInsert_ne_nil : ∀ (ar : List (String × List (Int × String)))
    (b : String) (i : Int) (v : String), amInsert ar b i v ≠ [] := by
  intro ar b i v
  cases ar with
  | nil => simp [amInsert]
  | cons q rest =>
    obtain ⟨b', m⟩ := q
    simp only [amInsert]
    split
    · simp
    · split <;> simp

/-- Under full header goodness, phase 1 succeeds and preserves the base
and non-emptiness invariants. -/
theorem phase1_ok : ∀ (cols : List (String × String))
    (st : List (String × List (Int × String)) × List (String × Json)),
    (∀ c ∈ cols, headerOk c.1 = true) →
    (∀ p ∈ st.1, split_keypath p.1 ≠ []) →
    ∃ ar fs, phase1 cols st = .ok (ar, fs) ∧ (∀ p ∈ ar, split_keypath p.1 ≠ []) ∧
      ((st.1 ≠ [] ∨ st.2 ≠ []) ∨ cols ≠ [] → ar ≠ [] ∨ fs ≠ []) := by
  intro cols
  induction cols with
  | nil =>
    intro st _ hst
    exact ⟨st.1, st.2, by simp [phase1], hst, fun h => by
      rcases h with h | h
      · exact h
      · exact absurd rfl h⟩
  | cons c cs ih =>
    intro st hok hst
    have hc := hok c (List.mem_cons_self _ _)
    have hcs : ∀ c' ∈ cs, headerOk c'.1 = true :=
      fun c' h' => hok c' (List.mem_cons_of_mem _ h')
    unfold headerOk at hc
    rw [Bool.and_eq_true] at hc
    obtain ⟨hbo, hsto⟩ := hc
    cases hidx : firstNumIdx (split_keypath c.1) with
    | some j =>
      have hstoi : ∃ idx, stoiOpt ((split_keypath c.1).getD j "") = some idx := by
        rw [hidx] at hsto
        simp only [stoiOk] at hsto
        exact Option.isSome_iff_exists.mp hsto
      obtain ⟨idx, hst2⟩ := hstoi
      have hcol : colStep st c =
          .ok (amInsert st.1 (joinDots ((split_keypath c.1).take j)) idx c.2, st.2) := by
        simp only [colStep, hidx, hst2]
      have hbase : split_keypath (joinDots ((split_keypath c.1).take j)) ≠ [] := by
        unfold headerBoundsOk at hbo
        rw [hidx] at hbo
        simpa using hbo
      have hins : ∀ p ∈ amInsert st.1 (joinDots ((split_keypath c.1).take j)) idx c.2,
          split_keypath p.1 ≠ [] := by
        intro p hp
        rcases amInsert_mem st.1 _ idx c.2 p hp with h | h
        · rw [h]; exact hbase
        · exact hst p h
      obtain ⟨ar, fs, hp1, har, hne⟩ :=
        ih (amInsert st.1 (joinDots ((split_keypath c.1).take j)) idx c.2, st.2) hcs hins
      refine ⟨ar, fs, ?_, har, ?_⟩
      · simp only [phase1, hcol]
        exact hp1
      · intro _
        exact hne (Or.inl (Or.inl (amInsert_ne_nil st.1 _ idx c.2)))
    | none =>
      have hsk : split_keypath c.1 ≠ [] := by
        unfold headerBoundsOk at hbo
        rw [hidx] at hbo
        simpa using hbo
      obtain ⟨fs', hfs'⟩ := setNestedF_ok (split_keypath c.1) st.2 (valJson c.2) hsk
      have hcol : colStep st c = .ok (st.1, fs') := by
        simp only [colStep, hidx, set_nested_value, hfs']
      obtain ⟨ar, fs, hp1, har, hne⟩ := ih (st.1, fs') hcs hst
      refine ⟨ar, fs, ?_, har, ?_⟩
      · simp only [phase1, hcol]
        exact hp1
      · intro _
        exact hne (Or.inl (Or.inr (setNestedF_ne_nil _ _ _ _ hfs')))

/-- Phase 2 preserves non-emptiness of the record. -/
theorem phase2_ne_nil : ∀ (ar : List (String × List (Int × String)))
    (fs fs' : List (String × Json)), phase2 ar fs = .ok fs' →
    (fs ≠ [] ∨ ar ≠ []) → fs' ≠ [] := by
  intro ar
  induction ar with
  | nil =>
    intro fs fs' h hne
    simp [phase2] at h
    rw [← h]
    rcases hne with h' | h'
    · exact h'
    · exact absurd rfl h'
  | cons q rest ih =>
    intro fs fs' h _
    obtain ⟨base, m⟩ := q
    simp only [phase2, set_nested_json] at h
    cases hset : setNestedF fs (split_keypath base) (Json.arr (mkArrayJson m)) with
    | error e => rw [hset] at h; simp at h
    | ok fs1 =>
      rw [hset] at h
      exact ih fs1 fs' h (Or.inl (setNestedF_ne_nil _ _ _ _ hset))

/-- Under good headers, every non-empty row materializes to a non-empty
object. -/
theorem build_ok (headers : List String) (hg : goodHeaders headers = true)
    (row : List String) (hrow : row ≠ []) :
    ∃ fs, buildFields headers row = .ok fs ∧ fs ≠ [] := by
  unfold goodHeaders at hg
  rw [Bool.and_eq_true] at hg
  obtain ⟨hhne, hall⟩ := hg
  have hok : ∀ c ∈ headers.zip row, headerOk c.1 = true := by
    intro c hc
    exact List.all_eq_true.mp hall c.1 (List.of_mem_zip hc).1
  have hzne : headers.zip row ≠ [] := by
    cases headers with
    | nil => simp at hhne
    | cons h hs =>
      cases row with
      | nil => exact absurd rfl hrow
      | cons r rs => simp [List.zip]
  obtain ⟨ar, fs2, hp1, har, hne⟩ := phase1_ok (headers.zip row) ([], []) hok (by simp)
  obtain ⟨fs, hp2⟩ := phase2_ok ar fs2 har
  refine ⟨fs, ?_, ?_⟩
  · unfold buildFields
    rw [hp1]
    exact hp2
  · refine phase2_ne_nil ar fs2 fs hp2 ?_
    rcases hne (Or.inr hzne) with h | h
    · exact Or.inr h
    · exact Or.inl h

/-- Under good headers, every line materializes to the non-empty object
`rowJson` describes. -/
theorem recordE_good (headers : List String) (hg : goodHeaders headers = true)
    (line : String) :
    recordE headers line = .ok (rowJson headers line) ∧
      jsonEmpty (rowJson headers line) = false := by
  obtain ⟨fs, hfs, hne⟩ :=
    build_ok headers hg (parse_csv_line line) (parse_csv_line_ne_nil line)
  have hrec : recordE headers line = .ok (Json.obj fs) := by
    unfold recordE build_json_from_row
    rw [hfs]
    rfl
  have hrow : rowJson headers line = Json.obj fs := by
    unfold rowJson
    rw [hrec]
  refine ⟨by rw [hrec, hrow], ?_⟩
  rw [hrow]
  simp only [jsonEmpty]
  cases fs with
  | nil => exact absurd rfl hne
  | cons q rest => simp

/-- The scan finds nothing exactly when every line is skipped. -/
theorem findData_none_iff : ∀ (ls : List String),
    findData ls = none ↔ dataLines ls = [] := by
  intro ls
  induction ls with
  | nil => simp [findData, dataLines]
  | cons l ls ih =>
    by_cases hl : skipLine l
    · have hd : dataLines (l :: ls) = dataLines ls := by
        simp [dataLines, List.filter_cons, hl]
      rw [hd, ← ih]
      simp only [findData, if_pos hl]
      cases hfd : findData ls with
      | none => simp
      | some p => simp
    · have hd : dataLines (l :: ls) = l :: dataLines ls := by
        simp [dataLines, List.filter_cons, hl]
      rw [hd]
      simp [findData, hl]

/-- The scan's first data line heads the data-line list, and the lines
after it carry the remaining data lines. -/
theorem findData_some_dataLines : ∀ (ls : List String) (i : Nat) (l : String),
    findData ls = some (i, l) →
    dataLines ls = l :: dataLines (ls.drop (i + 1)) := by
  intro ls
  induction ls with
  | nil => intro i l h; simp [findData] at h
  | cons l0 ls ih =>
    intro i l h
    simp only [findData] at h
    by_cases hl : skipLine l0
    · rw [if_pos hl] at h
      cases hfd : findData ls with
      | none => rw [hfd] at h; simp at h
      | some p =>
        obtain ⟨i', l'⟩ := p
        rw [hfd] at h
        rw [show Option.map (fun p => (p.1 + 1, p.2)) (some (i', l')) =
            some (i' + 1, l') from rfl] at h
        rw [Option.some.injEq, Prod.mk.injEq] at h
        obtain ⟨hi, hleq⟩ := h
        subst hleq
        subst hi
        simp only [dataLines, List.filter_cons, hl, Bool.not_true, List.drop_succ_cons]
        exact ih i' l' hfd
    · rw [if_neg hl] at h
      rw [Option.some.injEq, Prod.mk.injEq] at h
      obtain ⟨hi, hleq⟩ := h
      subst hleq
      subst hi
      simp [dataLines, List.filter_cons, hl]

/-- `countData` counts the data lines. -/
theorem countData_eq (ls : List String) : countData ls = (dataLines ls).length := by
  induction ls with
  | nil => rfl
  | cons l ls ih =>
    by_cases hl : skipLine l
    · simp [countData, dataLines, List.filter_cons, hl, ih]
    · simp [countData, dataLines, List.filter_cons, hl, ih, Nat.add_comm]

/-- Consuming the pending part of the periodic stream. -/
theorem cyc_partial_append (f : List Json) : ∀ (cur : List Json) (m : Nat),
    cyc f cur (cur.length + m) = cur ++ cyc f [] m := by
  intro cur
  induction cur with
  | nil => intro m; simp
  | cons x xs ih =>
    intro m
    have : (x :: xs).length + m = (xs.length + m) + 1 := by
      simp [Nat.succ_add, Nat.add_comm, Nat.add_assoc, Nat.add_left_comm]
    rw [this]
    simp only [cyc, ih m, List.cons_append]

/-- Restarting the periodic stream from an empty pending part equals
restarting it from the full period, for positive length. -/
theorem cyc_nil_eq_full (f : List Json) (hf : f ≠ []) :
    ∀ m, 0 < m → cyc f [] m = cyc f f m := by
  intro m hm
  cases m with
  | zero => simp at hm
  | succ m' =>
    cases f with
    | nil => exact absurd rfl hf
    | cons x xs => simp [cyc]

/-- `k` whole periods of the stream are `k` copies of the period. -/
theorem cyc_eq_join (f : List Json) (hf : f ≠ []) :
    ∀ (k : Nat), cyc f f (k * f.length) = (List.replicate k f).join := by
  intro k
  induction k with
  | zero => simp [cyc]
  | succ k ih =>
    have hmul : (k + 1) * f.length = f.length + k * f.length := by ring
    rw [hmul, cyc_partial_append f f (k * f.length)]
    by_cases hk : k * f.length = 0
    · rw [hk]
      have hk0 : k = 0 := by
        rcases Nat.mul_eq_zero.mp hk with h | h
        · exact h
        · exact absurd (List.eq_nil_of_length_eq_zero h) hf
      subst hk0
      simp [cyc]
    · rw [cyc_nil_eq_full f hf (k * f.length) (Nat.pos_of_ne_zero hk), ih]
      simp [List.replicate_succ]

/-- The reset state when a header line exists. -/
theorem reset_shape (s : St) (i0 : Nat) (hl : String)
    (hfd : findData s.lines = some (i0, hl)) :
    reset s = ⟨s.lines, i0 + 1, false, false, s.headers, s.loopEnabled⟩ := by
  unfold reset
  rw [hfd]

/-- `count_data_rows` returns the data-row count of one full pass and
leaves the file contents, headers and loop flag unchanged. -/
theorem count_data_rows_spec (s : St) :
    (count_data_rows s).1 = rowsPerCycle s.lines ∧
    (count_data_rows s).2.lines = s.lines ∧
    (count_data_rows s).2.headers = s.headers ∧
    (count_data_rows s).2.loopEnabled = s.loopEnabled := by
  unfold count_data_rows rowsPerCycle bodyStart
  cases hfd : findData s.lines with
  | some p =>
    obtain ⟨i0, hl⟩ := p
    rw [reset_shape s i0 hl hfd]
    by_cases hf : s.failbit <;> simp [hf]
  | none =>
    have hr : reset s = { s with pos := s.lines.length, eofbit := true, failbit := true } := by
      unfold reset
      rw [hfd]
    rw [hr]
    by_cases hf : s.failbit <;> simp [hf, List.drop_length, countData]

/-- The orbit of the bounded `play` loop: from any cursor position in
loop mode with good headers, the records produced are the periodic
stream that finishes the current pass and then repeats the full pass. -/
theorem playSteps_cyc (lines headers : List String) (i0 : Nat) (hl : String)
    (hg : goodHeaders headers = true)
    (hfd : findData lines = some (i0, hl))
    (hfull : dataLines (lines.drop (i0 + 1)) ≠ []) :
    ∀ (m : Nat) (p : Nat),
      (playSteps m ⟨lines, p, false, false, headers, true⟩).1 =
        .ok (cyc ((dataLines (lines.drop (i0 + 1))).map (rowJson headers))
          ((dataLines (lines.drop p)).map (rowJson headers)) m) := by
  intro m
  induction m with
  | zero => intro p; simp [playSteps, cyc]
  | succ m ih =>
    intro p
    have hnext : has_next ⟨lines, p, false, false, headers, true⟩ = true := by
      simp [has_next]
    cases hfdp : findData (lines.drop p) with
    | some q =>
      obtain ⟨i, l⟩ := q
      have hscan : scanData ⟨lines, p, false, false, headers, true⟩ =
          (some l, ⟨lines, p + i + 1, false, false, headers, true⟩) := by
        simp [scanData, hfdp]
      have hadv : advance ⟨lines, p, false, false, headers, true⟩ =
          (recordE headers l, ⟨lines, p + i + 1, false, false, headers, true⟩) := by
        unfold advance
        rw [hscan]
      obtain ⟨hrec, hempty⟩ := recordE_good headers hg l
      have hdl : dataLines (lines.drop p) =
          l :: dataLines (lines.drop (p + i + 1)) := by
        have := findData_some_dataLines (lines.drop p) i l hfdp
        rwa [List.drop_drop, ← Nat.add_assoc] at this
      simp only [playSteps, hnext, if_true, hadv, hrec, hempty, Bool.false_eq_true,
        if_false]
      cases hps : playSteps m ⟨lines, p + i + 1, false, false, headers, true⟩ with
      | mk r s'' =>
        have : r = .ok (cyc ((dataLines (lines.drop (i0 + 1))).map (rowJson headers))
            ((dataLines (lines.drop (p + i + 1))).map (rowJson headers)) m) := by
          have h := ih (p + i + 1)
          rw [hps] at h
          exact h
        rw [this]
        simp only
        rw [hdl]
        simp [cyc]
    | none =>
      have hdlp : dataLines (lines.drop p) = [] := (findData_none_iff _).mp hfdp
      have hscan : scanData ⟨lines, p, false, false, headers, true⟩ =
          (none, ⟨lines, p, true, true, headers, true⟩) := by
        simp [scanData, hfdp]
      have hreset : reset ⟨lines, p, true, true, headers, true⟩ =
          ⟨lines, i0 + 1, false, false, headers, true⟩ :=
        reset_shape _ i0 hl hfd
      obtain ⟨i1, l1, hfd1⟩ : ∃ i1 l1, findData (lines.drop (i0 + 1)) = some (i1, l1) := by
        cases hfd1 : findData (lines.drop (i0 + 1)) with
        | none => exact absurd ((findData_none_iff _).mp hfd1) hfull
        | some q =>
          obtain ⟨i1, l1⟩ := q
          exact ⟨i1, l1, rfl⟩
      have hscan1 : scanData ⟨lines, i0 + 1, false, false, headers, true⟩ =
          (some l1, ⟨lines, i0 + 1 + i1 + 1, false, false, headers, true⟩) := by
        simp [scanData, hfd1]
      have hadv : advance ⟨lines, p, false, false, headers, true⟩ =
          (recordE headers l1, ⟨lines, i0 + 1 + i1 + 1, false, false, headers, true⟩) := by
        unfold advance
        rw [hscan]
        simp only [Bool.and_self, if_true]
        rw [hreset, hscan1]
      obtain ⟨hrec, hempty⟩ := recordE_good headers hg l1
      have hdl : dataLines (lines.drop (i0 + 1)) =
          l1 :: dataLines (lines.drop (i0 + 1 + i1 + 1)) := by
        have := findData_some_dataLines (lines.drop (i0 + 1)) i1 l1 hfd1
        rwa [List.drop_drop, ← Nat.add_assoc] at this
      simp only [playSteps, hnext, if_true, hadv, hrec, hempty, Bool.false_eq_true,
        if_false]
      cases hps : playSteps m ⟨lines, i0 + 1 + i1 + 1, false, false, headers, true⟩ with
      | mk r s'' =>
        have : r = .ok (cyc ((dataLines (lines.drop (i0 + 1))).map (rowJson headers))
            ((dataLines (lines.drop (i0 + 1 + i1 + 1))).map (rowJson headers)) m) := by
          have h := ih (i0 + 1 + i1 + 1)
          rw [hps] at h
          exact h
        rw [this]
        simp only
        rw [hdlp, hdl]
        simp [cyc]

/--
C5 (confirmed): with the Loop Flag set and `max_cycles = k > 0`, `play`
first counts the data rows of one full pass; when that count is zero it
returns at once with no callback invocation; otherwise the callback
receives exactly `k * rows_per_cycle` records and the sequence is the
`rows_per_cycle`-periodic repetition (`k` concatenated copies) of the
single-pass record sequence. -/
theorem play_bounded_loop (s : St) (k : Nat) (hk : k ≠ 0)
    (hl : s.loopEnabled = true) (hg : goodHeaders s.headers = true) :
    (rowsPerCycle s.lines = 0 → play s k = (.ok [], (count_data_rows s).2)) ∧
    (rowsPerCycle s.lines ≠ 0 →
      (play s k).1 =
        .ok ((List.replicate k (onePassRecords s.lines s.headers)).join) ∧
      (onePassRecords s.lines s.headers).length = rowsPerCycle s.lines) := by
  obtain ⟨hcnt, hclines, hcheaders, hcloop⟩ := count_data_rows_spec s
  have hplay : play s k =
      (if (count_data_rows s).1 = 0 then ((.ok [], (count_data_rows s).2) :
          Except Err (List Json) × St)
       else playSteps (k * (count_data_rows s).1) (reset (count_data_rows s).2)) := by
    unfold play
    rw [if_neg]
    intro hor
    rcases hor with h | h
    · rw [hl] at h; exact Bool.noConfusion h
    · exact hk h
  constructor
  · intro h0
    rw [hplay, if_pos (by rw [hcnt]; exact h0)]
  · intro hn0
    obtain ⟨i0, hl0, hfd⟩ : ∃ i0 hl0, findData s.lines = some (i0, hl0) := by
      cases hfd : findData s.lines with
      | none =>
        exfalso
        apply hn0
        unfold rowsPerCycle bodyStart
        rw [hfd, List.drop_length]
        rfl
      | some q =>
        obtain ⟨i0, hl0⟩ := q
        exact ⟨i0, hl0, rfl⟩
    have hbody : bodyStart s.lines = i0 + 1 := by
      unfold bodyStart
      rw [hfd]
    have hfull : dataLines (s.lines.drop (i0 + 1)) ≠ [] := by
      intro hnil
      apply hn0
      unfold rowsPerCycle
      rw [hbody, countData_eq, hnil]
      rfl
    have hreset : reset (count_data_rows s).2 =
        ⟨s.lines, i0 + 1, false, false, s.headers, true⟩ := by
      rw [reset_shape (count_data_rows s).2 i0 hl0 (by rw [hclines]; exact hfd)]
      rw [hclines, hcheaders, hcloop, hl]
    have hone : onePassRecords s.lines s.headers =
        (dataLines (s.lines.drop (i0 + 1))).map (rowJson s.headers) := by
      unfold onePassRecords
      rw [hbody]
    have honelen : (onePassRecords s.lines s.headers).length = rowsPerCycle s.lines := by
      rw [hone, List.length_map, ← countData_eq]
      unfold rowsPerCycle
      rw [hbody]
    refine ⟨?_, honelen⟩
    rw [hplay, if_neg (by rw [hcnt]; exact hn0), hreset]
    rw [show k * (count_data_rows s).1 =
        k * (onePassRecords s.lines s.headers).length by rw [hcnt, honelen]]
    rw [playSteps_cyc s.lines s.headers i0 hl0 hg hfd hfull
      (k * (onePassRecords s.lines s.headers).length) (i0 + 1)]
    rw [← hone]
    have hne : onePassRecords s.lines s.headers ≠ [] := by
      rw [hone]
      intro hmap
      exact hfull (List.map_eq_nil_iff.mp hmap)
    rw [cyc_eq_join (onePassRecords s.lines s.headers) hne k]

/-- Witness for `play_bounded_loop`: two bounded cycles over a two-row
source yield the four records of two concatenated passes. -/
theorem play_bounded_loop_witness :
    (play ⟨["h", "1", "2"], 0, false, false, ["h"], true⟩ 2).1 =
      .ok ((List.replicate 2 (onePassRecords ["h", "1", "2"] ["h"])).join) ∧
    (onePassRecords ["h", "1", "2"] ["h"]).length = rowsPerCycle ["h", "1", "2"] :=
  (play_bounded_loop ⟨["h", "1", "2"], 0, false, false, ["h"], true⟩ 2
    (by decide) rfl (by decide)).2 (by decide)

/-- A character below the upper-case range is fixed by `toLower`. -/
theorem toLower_small (c : Char) (h : c.toNat < 65) : c.toLower = c := by
  unfold Char.toLower
  rw [if_neg]
  intro hc
  exact absurd h (Nat.not_lt.mpr hc.1)

/-- `toLower` never lowers the code point below 46. -/
theorem toNat_ge_of_toLower (c : Char) (h : 65 ≤ c.toLower.toNat) : 46 ≤ c.toNat := by
  by_cases hc : c.toNat < 65
  · rw [toLower_small c hc] at h
    exact le_trans (by norm_num) h
  · exact le_trans (by norm_num) (Nat.not_lt.mp hc)

/-- Digit bounds. -/
theorem isDig_bounds (c : Char) (h : isDig c = true) : 48 ≤ c.toNat ∧ c.toNat ≤ 57 := by
  unfold isDig at h
  rw [Bool.and_eq_true] at h
  exact ⟨of_decide_eq_true h.1, of_decide_eq_true h.2⟩

/-- Splitting a list at a boundary where the predicate flips: `takeWhile`
keeps exactly the satisfying prefix and `dropWhile` returns the rest. -/
theorem span_exact {p : Char → Bool} : ∀ (d r : List Char),
    (∀ c ∈ d, p c = true) → (∀ c, r.head? = some c → p c = false) →
    (d ++ r).takeWhile p = d ∧ (d ++ r).dropWhile p = r := by
  intro d
  induction d with
  | nil =>
    intro r _ hr
    cases r with
    | nil => simp
    | cons c r' =>
      have := hr c (by simp)
      simp [List.takeWhile, List.dropWhile, this]
  | cons c d' ih =>
    intro r hd hr
    have hc : p c = true := hd c (List.mem_cons_self _ _)
    have := ih r (fun x hx => hd x (List.mem_cons_of_mem _ hx)) hr
    simp [List.takeWhile, List.dropWhile, hc, this.1, this.2]

/-- A list whose head lowers differently from the pattern head fails the
case-insensitive prefix test. -/
theorem ciPre_false_head (p0 : Char) (ps : List Char) (c : Char) (rest : List Char)
    (h : c.toLower ≠ p0) : ciPre (p0 :: ps) (c :: rest) = false := by
  unfold ciPre
  rw [show (p0 :: ps).length = ps.length + 1 from rfl, List.take_succ_cons, List.map_cons]
  apply beq_eq_false_iff_ne.mpr
  intro heq
  exact h (List.head_eq_of_cons_eq heq)

/-- A small head (below the upper-case letters) that differs from the
pattern head in code point fails the case-insensitive prefix test, for
lower-case pattern heads. -/
theorem ciPre_false_small (p0 : Char) (ps : List Char) (c : Char) (rest : List Char)
    (hsmall : c.toNat < 65) (hne : c.toNat ≠ p0.toNat) :
    ciPre (p0 :: ps) (c :: rest) = false := by
  apply ciPre_false_head
  rw [toLower_small c hsmall]
  intro h
  exact hne (by rw [h])

/-- A list whose lowering equals the pattern passes the case-insensitive
prefix test and is consumed exactly. -/
theorem ciPre_of_map (b : List Char) (pat : List Char)
    (h : b.map Char.toLower = pat) : ciPre pat b = true := by
  unfold ciPre
  have hlen : b.length = pat.length := by rw [← h, List.length_map]
  rw [← hlen, List.take_length, h]
  exact beq_self_eq_true pat

/-- A passing case-insensitive prefix test means the first
`pat.length` characters lower to the pattern. -/
theorem ciPre_spec (pat : List Char) (cs : List Char) (h : ciPre pat cs = true) :
    (cs.take pat.length).map Char.toLower = pat := eq_of_beq h

/-- A string is empty exactly when it has no characters. -/
theorem string_isEmpty_iff (s : String) : s.isEmpty = true ↔ s.data = [] := by
  rw [String.isEmpty_iff]
  constructor
  · intro h; rw [h]
  · intro h
    cases s with
    | mk d =>
      have hd : d = [] := h
      rw [hd]

/-- Soundness of the exponent scan: what it consumes is a well-formed
optional exponent. -/
theorem scanExp_sound (lo hi : Char) (cs : List Char) (e : Int) (r : List Char)
    (h : scanExp lo hi cs = (e, r)) : ∃ ep, cs = ep ++ r ∧ expOpt lo hi ep := by
  unfold scanExp at h
  by_cases hc : cs.head? = some lo ∨ cs.head? = some hi
  · rw [if_pos hc] at h
    obtain ⟨c, tail, rfl⟩ : ∃ c tail, cs = c :: tail := by
      cases cs with
      | nil => rcases hc with h' | h' <;> simp at h'
      | cons c tail => exact ⟨c, tail, rfl⟩
    have hcchar : c = lo ∨ c = hi := by
      rcases hc with h' | h' <;> simp at h'
      · left; exact h'
      · right; exact h'
    simp only [List.tail_cons] at h
    unfold signSplit at h
    by_cases hp : tail.head? = some '+'
    · rw [if_pos hp] at h
      obtain ⟨rest', rfl⟩ : ∃ rest', tail = '+' :: rest' := by
        cases tail with
        | nil => simp at hp
        | cons x xs => simp at hp; rw [hp]; exact ⟨xs, rfl⟩
      simp only [List.tail_cons] at h
      by_cases hds : (rest'.takeWhile isDig).isEmpty
      · rw [if_pos hds] at h
        obtain ⟨rfl, rfl⟩ : e = 0 ∧ r = c :: '+' :: rest' := by
          constructor
          · exact (Prod.mk.injEq .. ▸ h).1.symm
          · exact (Prod.mk.injEq .. ▸ h).2.symm
        exact ⟨[], rfl, Or.inl rfl⟩
      · rw [if_neg hds] at h
        have hr : r = rest'.dropWhile isDig := (Prod.mk.injEq .. ▸ h).2.symm
        refine ⟨c :: '+' :: rest'.takeWhile isDig, ?_, ?_⟩
        · rw [hr]
          simp [List.takeWhile_append_dropWhile]
        · refine Or.inr ⟨c, ['+'], rest'.takeWhile isDig, by simp, hcchar,
            Or.inr (Or.inl rfl), ?_, fun d hd => List.mem_takeWhile_imp hd⟩
          intro hnil
          rw [hnil] at hds
          simp at hds
    · rw [if_neg hp] at h
      by_cases hm : tail.head? = some '-'
      · rw [if_pos hm] at h
        obtain ⟨rest', rfl⟩ : ∃ rest', tail = '-' :: rest' := by
          cases tail with
          | nil => simp at hm
          | cons x xs => simp at hm; rw [hm]; exact ⟨xs, rfl⟩
        simp only [List.tail_cons] at h
        by_cases hds : (rest'.takeWhile isDig).isEmpty
        · rw [if_pos hds] at h
          have hr : r = c :: '-' :: rest' := (Prod.mk.injEq .. ▸ h).2.symm
          exact ⟨[], by rw [hr]; rfl, Or.inl rfl⟩
        · rw [if_neg hds] at h
          have hr : r = rest'.dropWhile isDig := (Prod.mk.injEq .. ▸ h).2.symm
          refine ⟨c :: '-' :: rest'.takeWhile isDig, ?_, ?_⟩
          · rw [hr]
            simp [List.takeWhile_append_dropWhile]
          · refine Or.inr ⟨c, ['-'], rest'.takeWhile isDig, by simp, hcchar,
              Or.inr (Or.inr rfl), ?_, fun d hd => List.mem_takeWhile_imp hd⟩
            intro hnil
            rw [hnil] at hds
            simp at hds
      · rw [if_neg hm] at h
        by_cases hds : (tail.takeWhile isDig).isEmpty
        · rw [if_pos hds] at h
          have hr : r = c :: tail := (Prod.mk.injEq .. ▸ h).2.symm
          exact ⟨[], by rw [hr]; rfl, Or.inl rfl⟩
        · rw [if_neg hds] at h
          have hr : r = tail.dropWhile isDig := (Prod.mk.injEq .. ▸ h).2.symm
          refine ⟨c :: tail.takeWhile isDig, ?_, ?_⟩
          · rw [hr]
            simp [List.takeWhile_append_dropWhile]
          · refine Or.inr ⟨c, [], tail.takeWhile isDig, by simp, hcchar,
              Or.inl rfl, ?_, fun d hd => List.mem_takeWhile_imp hd⟩
            intro hnil
            rw [hnil] at hds
            simp at hds
  · rw [if_neg hc] at h
    have hr : r = cs := (Prod.mk.injEq .. ▸ h).2.symm
    exact ⟨[], by rw [hr]; rfl, Or.inl rfl⟩

/-- Completeness of the exponent scan: a well-formed optional exponent
is consumed entirely. -/
theorem scanExp_complete (lo hi : Char) (ep : List Char) (hexp : expOpt lo hi ep) :
    (scanExp lo hi ep).2 = [] := by
  rcases hexp with rfl | ⟨c, g, ds, rfl, hc, hg, hdsne, hds⟩
  · unfold scanExp; simp
  · have hhead : (c :: (g ++ ds)).head? = some lo ∨ (c :: (g ++ ds)).head? = some hi := by
      rcases hc with rfl | rfl
      · left; rfl
      · right; rfl
    have hdspan : ds.takeWhile isDig = ds ∧ ds.dropWhile isDig = [] := by
      have := span_exact ds [] hds (fun c hc => by simp at hc)
      simpa using this
    have hne : ¬ ((ds.takeWhile isDig).isEmpty = true) := by
      rw [hdspan.1]
      cases ds with
      | nil => exact absurd rfl hdsne
      | cons d ds' => simp
    unfold scanExp
    rw [if_pos hhead]
    simp only [List.tail_cons]
    rcases hg with rfl | rfl | rfl
    · -- no sign: the head of ds is a digit, not a sign character
      simp only [List.nil_append]
      obtain ⟨d, ds', rfl⟩ : ∃ d ds', ds = d :: ds' := by
        cases ds with
        | nil => exact absurd rfl hdsne
        | cons d ds' => exact ⟨d, ds', rfl⟩
      have hbound := isDig_bounds d (hds d (List.mem_cons_self _ _))
      have hnp : ¬ ((d :: ds').head? = some '+') := by
        simp only [List.head?_cons, Option.some.injEq]
        intro hd'
        rw [hd'] at hbound
        revert hbound
        decide
      have hnm : ¬ ((d :: ds').head? = some '-') := by
        simp only [List.head?_cons, Option.some.injEq]
        intro hd'
        rw [hd'] at hbound
        revert hbound
        decide
      simp only [signSplit, if_neg hnp, if_neg hnm, if_neg hne, hdspan.2]
    · -- plus sign
      simp only [List.cons_append, List.nil_append, signSplit, List.head?_cons,
        Option.some.injEq, List.tail_cons]
      simp [hne, hdspan.2]
    · -- minus sign
      simp only [List.cons_append, List.nil_append, signSplit, List.head?_cons,
        Option.some.injEq, List.tail_cons]
      simp [hne, hdspan.2]

/-- A list with head `c` is `c` consed on its tail. -/
theorem head_shape {α : Type} (l : List α) (c : α) (h : l.head? = some c) :
    l = c :: l.tail := by
  cases l with
  | nil => simp at h
  | cons x xs => simp at h; rw [h]; rfl

/-- Soundness of the decimal scan: what it consumes is a decimal body. -/
theorem scanDec_sound (neg : Bool) (cs : List Char) (v : RVal) (r : List Char)
    (h : scanDec neg cs = some (v, r)) : ∃ b0, cs = b0 ++ r ∧ decForm b0 := by
  simp only [scanDec] at h
  by_cases hdot : (cs.dropWhile isDig).head? = some '.'
  · rw [if_pos hdot] at h
    simp only at h
    by_cases hboth : ((cs.takeWhile isDig).isEmpty &&
        ((cs.dropWhile isDig).tail.takeWhile isDig).isEmpty) = true
    · rw [if_pos hboth] at h
      simp at h
    · rw [if_neg hboth] at h
      cases hscan : scanExp 'e' 'E' ((cs.dropWhile isDig).tail.dropWhile isDig) with
      | mk e0 r3 =>
        rw [hscan] at h
        simp only [Option.some.injEq, Prod.mk.injEq] at h
        obtain ⟨-, hr⟩ := h
        obtain ⟨ep, hep, hexp⟩ := scanExp_sound 'e' 'E' _ e0 r3 hscan
        refine ⟨cs.takeWhile isDig ++
          ('.' :: (cs.dropWhile isDig).tail.takeWhile isDig) ++ ep, ?_, ?_⟩
        · rw [← hr]
          conv_lhs => rw [← List.takeWhile_append_dropWhile isDig cs]
          rw [head_shape _ _ hdot]
          conv_lhs => rw [← List.takeWhile_append_dropWhile isDig
            (cs.dropWhile isDig).tail]
          rw [hep]
          simp [List.append_assoc]
        · refine ⟨cs.takeWhile isDig, '.' :: (cs.dropWhile isDig).tail.takeWhile isDig,
            ep, by simp [List.append_assoc], fun d hd => List.mem_takeWhile_imp hd,
            Or.inr ⟨_, rfl, fun d hd => List.mem_takeWhile_imp hd⟩, hexp, ?_⟩
          rw [Bool.and_eq_true] at hboth
          push_neg at hboth
          by_cases hd1 : (cs.takeWhile isDig).isEmpty = true
          · have hd2 := hboth hd1
            refine Or.inr ⟨(cs.dropWhile isDig).tail.takeWhile isDig, rfl, ?_⟩
            intro hnil
            rw [hnil] at hd2
            simp at hd2
          · refine Or.inl ?_
            intro hnil
            rw [hnil] at hd1
            simp at hd1
  · rw [if_neg hdot] at h
    simp only at h
    by_cases hd1 : (cs.takeWhile isDig).isEmpty = true
    · rw [if_pos (by rw [hd1]; rfl)] at h
      simp at h
    · rw [if_neg (by rw [Bool.and_eq_true]; intro hc; exact hd1 hc.1)] at h
      cases hscan : scanExp 'e' 'E' (cs.dropWhile isDig) with
      | mk e0 r3 =>
        rw [hscan] at h
        simp only [Option.some.injEq, Prod.mk.injEq] at h
        obtain ⟨-, hr⟩ := h
        obtain ⟨ep, hep, hexp⟩ := scanExp_sound 'e' 'E' _ e0 r3 hscan
        refine ⟨cs.takeWhile isDig ++ ep, ?_, ?_⟩
        · rw [← hr]
          conv_lhs => rw [← List.takeWhile_append_dropWhile isDig cs]
          rw [hep]
          simp [List.append_assoc]
        · refine ⟨cs.takeWhile isDig, [], ep, by simp,
            fun d hd => List.mem_takeWhile_imp hd, Or.inl rfl, hexp, Or.inl ?_⟩
          intro hnil
          rw [hnil] at hd1
          simp at hd1

/-- The head of a well-formed optional exponent, when present, is its
marker character. -/
theorem expOpt_head (lo hi : Char) (e : List Char) (he : expOpt lo hi e) :
    ∀ c, e.head? = some c → c = lo ∨ c = hi := by
  intro c hc
  rcases he with rfl | ⟨c', g, ds, rfl, hc', _, _, _⟩
  · simp at hc
  · simp at hc
    rw [← hc]
    exact hc'

/-- Completeness of the decimal scan: a decimal body is consumed
entirely. -/
theorem scanDec_complete (neg : Bool) (b : List Char) (hb : decForm b) :
    ∃ v, scanDec neg b = some (v, []) := by
  obtain ⟨d1, f, e, rfl, hd1, hf, he, hdig⟩ := hb
  have hfe : ∀ c, (f ++ e).head? = some c → isDig c = false := by
    intro c hc
    rcases hf with rfl | ⟨ds, rfl, _⟩
    · rw [List.nil_append] at hc
      rcases expOpt_head 'e' 'E' e he c hc with rfl | rfl <;> decide
    · simp at hc
      rw [← hc]
      decide
  have hspan1 := span_exact d1 (f ++ e) hd1 hfe
  have hcs : d1 ++ f ++ e = d1 ++ (f ++ e) := by simp [List.append_assoc]
  cases hsc : scanExp 'e' 'E' e with
  | mk e0 r3 =>
    have hscan2 := scanExp_complete 'e' 'E' e he
    rw [hsc] at hscan2
    simp only at hscan2
    subst hscan2
    rcases hf with rfl | ⟨ds, rfl, hds⟩
    · -- no fraction
      have hd1ne : d1 ≠ [] := by
        rcases hdig with h | ⟨ds, hds, _⟩
        · exact h
        · exact absurd hds (by simp)
      have hdot : ¬ (e.head? = some '.') := by
        intro hc
        rcases expOpt_head 'e' 'E' e he '.' hc with h | h <;> simp at h
      simp only [scanDec]
      rw [hcs, hspan1.1, hspan1.2, List.nil_append]
      rw [if_neg hdot]
      simp only
      rw [if_neg (by
        rw [Bool.and_eq_true]
        rintro ⟨h1, -⟩
        cases d1 with
        | nil => exact hd1ne rfl
        | cons c t => simp at h1)]
      rw [hsc]
      exact ⟨_, rfl⟩
    · -- fraction '.' :: ds
      have hehead : ∀ c, e.head? = some c → isDig c = false := by
        intro c hc
        rcases expOpt_head 'e' 'E' e he c hc with rfl | rfl <;> decide
      have hspan2 := span_exact ds e hds hehead
      have hcond : ¬ ((d1.isEmpty && ds.isEmpty) = true) := by
        rw [Bool.and_eq_true]
        rintro ⟨h1, h2⟩
        rcases hdig with h | ⟨ds', hds', hne'⟩
        · cases d1 with
          | nil => exact h rfl
          | cons c t => simp at h1
        · injection hds' with _ h3
          cases ds with
          | nil => exact hne' h3.symm
          | cons c t => simp at h2
      simp only [scanDec]
      rw [hcs, hspan1.1, hspan1.2, List.cons_append]
      rw [if_pos (show ('.' :: (ds ++ e)).head? = some '.' from rfl)]
      simp only [List.tail_cons]
      rw [hspan2.1, hspan2.2]
      rw [if_neg hcond]
      rw [hsc]
      exact ⟨_, rfl⟩

/-- Inversion of the hex-prefix test. -/
theorem hexPre_shape (cs : List Char) (h : hexPre cs = true) :
    ∃ x rest, cs = '0' :: x :: rest ∧ (x = 'x' ∨ x = 'X') := by
  unfold hexPre at h
  rw [Bool.and_eq_true, Bool.or_eq_true, decide_eq_true_iff, decide_eq_true_iff,
    decide_eq_true_iff] at h
  obtain ⟨h0, hx⟩ := h
  cases cs with
  | nil => simp at h0
  | cons c t =>
    simp at h0
    subst h0
    cases t with
    | nil => rcases hx with h' | h' <;> simp at h'
    | cons x rest =>
      simp at hx
      exact ⟨x, rest, rfl, hx⟩

/-- C whitespace characters all have code points below 46. -/
theorem cWs_lt (c : Char) (h : cWs c = true) : c.toNat < 46 := by
  unfold cWs at h
  simp only [Bool.or_eq_true, decide_eq_true_iff] at h
  rcases h with ((((h | h) | h) | h) | h) | h <;> subst h <;> decide

/-- Soundness of the sign split: the consumed part is an optional sign. -/
theorem signSplit_sound (l : List Char) (neg : Bool) (r2 : List Char)
    (h : signSplit l = (neg, r2)) : ∃ g, l = g ++ r2 ∧ signOpt g := by
  unfold signSplit at h
  by_cases hp : l.head? = some '+'
  · rw [if_pos hp] at h
    have hr : r2 = l.tail := (congrArg Prod.snd h).symm
    refine ⟨['+'], ?_, Or.inr (Or.inl rfl)⟩
    rw [hr, List.singleton_append]
    exact head_shape l '+' hp
  · rw [if_neg hp] at h
    by_cases hm : l.head? = some '-'
    · rw [if_pos hm] at h
      have hr : r2 = l.tail := (congrArg Prod.snd h).symm
      refine ⟨['-'], ?_, Or.inr (Or.inr rfl)⟩
      rw [hr, List.singleton_append]
      exact head_shape l '-' hm
    · rw [if_neg hm] at h
      have hr : r2 = l := (congrArg Prod.snd h).symm
      exact ⟨[], by rw [hr, List.nil_append], Or.inl rfl⟩

/-- A decimal body starts with a digit or a point. -/
theorem decForm_head (b : List Char) (hb : decForm b) :
    ∃ c rest, b = c :: rest ∧ (isDig c = true ∨ c = '.') := by
  obtain ⟨d1, f, e, rfl, hd1, hf, he, hdig⟩ := hb
  cases d1 with
  | nil =>
    have hfds : ∃ ds, f = '.' :: ds := by
      rcases hdig with h | ⟨ds, hds, _⟩
      · exact absurd rfl h
      · exact ⟨ds, hds⟩
    obtain ⟨ds, rfl⟩ := hfds
    exact ⟨'.', ds ++ e, by simp, Or.inr rfl⟩
  | cons c t =>
    exact ⟨c, t ++ f ++ e, by simp [List.append_assoc],
      Or.inl (hd1 c (List.mem_cons_self _ _))⟩

/-- The second character of a decimal body, when present, is a digit, a
point or an exponent marker. -/
theorem decForm_second (b : List Char) (hb : decForm b) :
    ∀ c2, b.tail.head? = some c2 →
      (isDig c2 = true ∨ c2 = '.' ∨ c2 = 'e' ∨ c2 = 'E') := by
  obtain ⟨d1, f, e, rfl, hd1, hf, he, hdig⟩ := hb
  intro c2 hc2
  have hfe : ∀ c, (f ++ e).head? = some c → (c = '.' ∨ c = 'e' ∨ c = 'E') := by
    intro c hc
    rcases hf with rfl | ⟨ds, rfl, _⟩
    · rw [List.nil_append] at hc
      rcases expOpt_head 'e' 'E' e he c hc with rfl | rfl
      · exact Or.inr (Or.inl rfl)
      · exact Or.inr (Or.inr rfl)
    · simp at hc
      exact Or.inl hc.symm
  cases d1 with
  | nil =>
    have hfds : ∃ ds, f = '.' :: ds := by
      rcases hdig with h | ⟨ds, hds, _⟩
      · exact absurd rfl h
      · exact ⟨ds, hds⟩
    obtain ⟨ds, rfl⟩ := hfds
    have hdsdig : ∀ d ∈ ds, isDig d = true := by
      rcases hf with h | ⟨ds', heq, hds'⟩
      · exact absurd h (by simp)
      · injection heq with _ h2
        exact h2 ▸ hds'
    simp only [List.nil_append, List.cons_append, List.tail_cons] at hc2
    cases ds with
    | nil =>
      rw [List.nil_append] at hc2
      rcases expOpt_head 'e' 'E' e he c2 hc2 with rfl | rfl
      · exact Or.inr (Or.inr (Or.inl rfl))
      · exact Or.inr (Or.inr (Or.inr rfl))
    | cons d ds' =>
      simp only [List.cons_append, List.head?_cons, Option.some.injEq] at hc2
      exact Or.inl (hc2 ▸ hdsdig d (by simp))
  | cons c t =>
    cases t with
    | nil =>
      simp only [List.cons_append, List.nil_append, List.tail_cons] at hc2
      rcases hfe c2 hc2 with h | h | h
      · exact Or.inr (Or.inl h)
      · exact Or.inr (Or.inr (Or.inl h))
      · exact Or.inr (Or.inr (Or.inr h))
    | cons c2' t' =>
      simp only [List.cons_append, List.tail_cons, List.head?_cons,
        Option.some.injEq] at hc2
      subst hc2
      exact Or.inl (hd1 c2' (by simp))

/-- Every accepted body is non-empty and starts at code point 46 or
above (so its head is no whitespace and no sign character). -/
theorem bodyLang_head (b : List Char) (hb : bodyLang b) :
    ∃ c rest, b = c :: rest ∧ 46 ≤ c.toNat := by
  rcases hb with hd | hh | hi | hn
  · obtain ⟨c, rest, rfl, hc⟩ := decForm_head b hd
    refine ⟨c, rest, rfl, ?_⟩
    rcases hc with h | rfl
    · exact le_trans (by norm_num) (isDig_bounds c h).1
    · decide
  · obtain ⟨x, h1, f, e, rfl, -, -, -, -, -⟩ := hh
    exact ⟨'0', _, rfl, by decide⟩
  · have hmap : ∃ t, b.map Char.toLower = 'i' :: t := by
      rcases hi with h | h
      · exact ⟨_, h⟩
      · exact ⟨_, h⟩
    obtain ⟨t, hmap⟩ := hmap
    cases b with
    | nil => simp at hmap
    | cons c rest =>
      rw [List.map_cons] at hmap
      have hcl : c.toLower = 'i' := List.head_eq_of_cons_eq hmap
      refine ⟨c, rest, rfl, toNat_ge_of_toLower c ?_⟩
      rw [hcl]
      decide
  · obtain ⟨h3, -⟩ := hn
    cases b with
    | nil => simp at h3
    | cons c rest =>
      have ht : (c :: rest).take 3 = c :: rest.take 2 := rfl
      rw [ht, List.map_cons] at h3
      have hcl : c.toLower = 'n' := List.head_eq_of_cons_eq h3
      refine ⟨c, rest, rfl, toNat_ge_of_toLower c ?_⟩
      rw [hcl]
      decide

/-- Soundness of the body scan: what it consumes is an accepted body. -/
theorem scanBody_sound (neg : Bool) (cs : List Char) (v : RVal) (r : List Char)
    (h : scanBody neg cs = some (v, r)) : ∃ b0, cs = b0 ++ r ∧ bodyLang b0 := by
  have htkgen : ∀ (l1 l2 : List Char), l1.length = 3 → (l1 ++ l2).take 3 = l1 := by
    intro l1 l2 hl
    rw [← hl]
    exact List.take_left l1 l2
  have hdpgen : ∀ (l1 l2 : List Char), l1.length = 3 → (l1 ++ l2).drop 3 = l2 := by
    intro l1 l2 hl
    rw [← hl]
    exact List.drop_left l1 l2
  simp only [scanBody] at h
  by_cases h8 : ciPre ['i','n','f','i','n','i','t','y'] cs = true
  · rw [if_pos h8] at h
    simp only [Option.some.injEq, Prod.mk.injEq] at h
    obtain ⟨-, hr⟩ := h
    refine ⟨cs.take 8, by rw [← hr]; exact (List.take_append_drop 8 cs).symm, ?_⟩
    exact Or.inr (Or.inr (Or.inl (Or.inr (ciPre_spec _ cs h8))))
  · rw [if_neg h8] at h
    by_cases h3 : ciPre ['i','n','f'] cs = true
    · rw [if_pos h3] at h
      simp only [Option.some.injEq, Prod.mk.injEq] at h
      obtain ⟨-, hr⟩ := h
      refine ⟨cs.take 3, by rw [← hr]; exact (List.take_append_drop 3 cs).symm, ?_⟩
      exact Or.inr (Or.inr (Or.inl (Or.inl (ciPre_spec _ cs h3))))
    · rw [if_neg h3] at h
      by_cases hn : ciPre ['n','a','n'] cs = true
      · rw [if_pos hn] at h
        have hlen3 : (cs.take 3).length = 3 := by
          have := congrArg List.length (ciPre_spec ['n','a','n'] cs hn)
          simpa using this
        have htk33 : (cs.take 3).take 3 = cs.take 3 := by
          simp [List.take_take]
        have hdrop33 : (cs.take 3).drop 3 = [] :=
          List.drop_eq_nil_of_le (le_of_eq hlen3)
        by_cases hp : (cs.drop 3).head? = some '('
        · rw [if_pos hp] at h
          by_cases hcl : ((cs.drop 3).tail.dropWhile nanChar).head? = some ')'
          · rw [if_pos hcl] at h
            simp only [Option.some.injEq, Prod.mk.injEq] at h
            obtain ⟨-, hr⟩ := h
            refine ⟨cs.take 3 ++ ('(' :: ((cs.drop 3).tail.takeWhile nanChar ++ [')'])),
              ?_, ?_⟩
            · rw [← hr]
              conv_lhs => rw [← List.take_append_drop 3 cs]
              rw [head_shape _ _ hp]
              conv_lhs => rw [← List.takeWhile_append_dropWhile nanChar (cs.drop 3).tail]
              rw [head_shape _ _ hcl]
              simp [List.append_assoc]
            · refine Or.inr (Or.inr (Or.inr ⟨?_, Or.inr
                ⟨(cs.drop 3).tail.takeWhile nanChar, ?_, ?_⟩⟩))
              · rw [htkgen _ _ hlen3]
                exact ciPre_spec _ cs hn
              · rw [hdpgen _ _ hlen3]
              · exact fun c hc => List.mem_takeWhile_imp hc
          · rw [if_neg hcl] at h
            simp only [Option.some.injEq, Prod.mk.injEq] at h
            obtain ⟨-, hr⟩ := h
            refine ⟨cs.take 3, by rw [← hr]; exact (List.take_append_drop 3 cs).symm, ?_⟩
            refine Or.inr (Or.inr (Or.inr ⟨?_, Or.inl hdrop33⟩))
            rw [htk33]
            exact ciPre_spec _ cs hn
        · rw [if_neg hp] at h
          simp only [Option.some.injEq, Prod.mk.injEq] at h
          obtain ⟨-, hr⟩ := h
          refine ⟨cs.take 3, by rw [← hr]; exact (List.take_append_drop 3 cs).symm, ?_⟩
          refine Or.inr (Or.inr (Or.inr ⟨?_, Or.inl hdrop33⟩))
          rw [htk33]
          exact ciPre_spec _ cs hn
      · rw [if_neg hn] at h
        by_cases hx : hexPre cs = true
        · rw [if_pos hx] at h
          obtain ⟨x, rest, rfl, hxc⟩ := hexPre_shape cs hx
          have hd2 : ('0' :: x :: rest).drop 2 = rest := rfl
          have hd1 : ('0' :: x :: rest).drop 1 = x :: rest := rfl
          rw [hd2, hd1] at h
          by_cases hdot : (rest.dropWhile isHexDig).head? = some '.'
          · rw [if_pos hdot] at h
            simp only at h
            by_cases hboth : ((rest.takeWhile isHexDig).isEmpty &&
                ((rest.dropWhile isHexDig).tail.takeWhile isHexDig).isEmpty) = true
            · rw [if_pos hboth] at h
              simp only [Option.some.injEq, Prod.mk.injEq] at h
              obtain ⟨-, hr⟩ := h
              refine ⟨['0'], by rw [← hr]; rfl, Or.inl ?_⟩
              exact ⟨['0'], [], [], rfl, by decide, Or.inl rfl, Or.inl rfl,
                Or.inl (by simp)⟩
            · rw [if_neg hboth] at h
              cases hscan : scanExp 'p' 'P'
                  ((rest.dropWhile isHexDig).tail.dropWhile isHexDig) with
              | mk e0 r3 =>
                rw [hscan] at h
                simp only [Option.some.injEq, Prod.mk.injEq] at h
                obtain ⟨-, hr⟩ := h
                obtain ⟨ep, hep, hexp⟩ := scanExp_sound 'p' 'P' _ e0 r3 hscan
                refine ⟨'0' :: x :: (rest.takeWhile isHexDig ++
                  ('.' :: (rest.dropWhile isHexDig).tail.takeWhile isHexDig) ++ ep),
                  ?_, Or.inr (Or.inl ?_)⟩
                · rw [← hr]
                  conv_lhs => rw [show rest = rest.takeWhile isHexDig ++
                    rest.dropWhile isHexDig from
                    (List.takeWhile_append_dropWhile isHexDig rest).symm]
                  rw [head_shape _ _ hdot]
                  conv_lhs => rw [show (rest.dropWhile isHexDig).tail =
                    (rest.dropWhile isHexDig).tail.takeWhile isHexDig ++
                    (rest.dropWhile isHexDig).tail.dropWhile isHexDig from
                    (List.takeWhile_append_dropWhile isHexDig _).symm]
                  rw [hep]
                  simp [List.append_assoc]
                · refine ⟨x, rest.takeWhile isHexDig,
                    '.' :: (rest.dropWhile isHexDig).tail.takeWhile isHexDig, ep,
                    by simp [List.append_assoc], hxc,
                    fun d hd => List.mem_takeWhile_imp hd,
                    Or.inr ⟨_, rfl, fun d hd => List.mem_takeWhile_imp hd⟩, hexp, ?_⟩
                  rw [Bool.and_eq_true] at hboth
                  push_neg at hboth
                  by_cases hh1 : (rest.takeWhile isHexDig).isEmpty = true
                  · have hh2 := hboth hh1
                    refine Or.inr ⟨(rest.dropWhile isHexDig).tail.takeWhile isHexDig,
                      rfl, ?_⟩
                    intro hnil
                    rw [hnil] at hh2
                    simp at hh2
                  · refine Or.inl ?_
                    intro hnil
                    rw [hnil] at hh1
                    simp at hh1
          · rw [if_neg hdot] at h
            simp only at h
            by_cases hh1 : (rest.takeWhile isHexDig).isEmpty = true
            · rw [if_pos (by rw [hh1]; rfl)] at h
              simp only [Option.some.injEq, Prod.mk.injEq] at h
              obtain ⟨-, hr⟩ := h
              refine ⟨['0'], by rw [← hr]; rfl, Or.inl ?_⟩
              exact ⟨['0'], [], [], rfl, by decide, Or.inl rfl, Or.inl rfl,
                Or.inl (by simp)⟩
            · rw [if_neg (by rw [Bool.and_eq_true]; intro hc; exact hh1 hc.1)] at h
              cases hscan : scanExp 'p' 'P' (rest.dropWhile isHexDig) with
              | mk e0 r3 =>
                rw [hscan] at h
                simp only [Option.some.injEq, Prod.mk.injEq] at h
                obtain ⟨-, hr⟩ := h
                obtain ⟨ep, hep, hexp⟩ := scanExp_sound 'p' 'P' _ e0 r3 hscan
                refine ⟨'0' :: x :: (rest.takeWhile isHexDig ++ ep), ?_,
                  Or.inr (Or.inl ?_)⟩
                · rw [← hr]
                  conv_lhs => rw [show rest = rest.takeWhile isHexDig ++
                    rest.dropWhile isHexDig from
                    (List.takeWhile_append_dropWhile isHexDig rest).symm]
                  rw [hep]
                  simp [List.append_assoc]
                · refine ⟨x, rest.takeWhile isHexDig, [], ep, by simp, hxc,
                    fun d hd => List.mem_takeWhile_imp hd, Or.inl rfl, hexp,
                    Or.inl ?_⟩
                  intro hnil
                  rw [hnil] at hh1
                  simp at hh1
        · rw [if_neg hx] at h
          obtain ⟨b0, hb0, hdec⟩ := scanDec_sound neg cs v r h
          exact ⟨b0, hb0, Or.inl hdec⟩

/-- Completeness of the body scan: every accepted body is consumed
entirely. -/
theorem scanBody_complete (neg : Bool) (b : List Char) (hb : bodyLang b) :
    ∃ v, scanBody neg b = some (v, []) := by
  rcases hb with hd | hh | hi | hn
  · -- decimal body
    obtain ⟨c, rest, hbs, hcd⟩ := decForm_head b hd
    subst hbs
    have hsmall : c.toNat < 65 := by
      rcases hcd with hdg | rfl
      · exact lt_of_le_of_lt (isDig_bounds c hdg).2 (by norm_num)
      · decide
    have hguard : ∀ (p0 : Char) (ps : List Char), 65 ≤ p0.toNat →
        ciPre (p0 :: ps) (c :: rest) = false := by
      intro p0 ps hp0
      apply ciPre_false_small p0 ps c rest hsmall
      intro heq
      omega
    have hhexF : hexPre (c :: rest) = false := by
      rcases hcd with hdg | rfl
      · by_cases hc0 : c = '0'
        · subst hc0
          cases rest with
          | nil => simp [hexPre]
          | cons c2 t2 =>
            have hsec := decForm_second _ hd c2 rfl
            have hx2 : c2 ≠ 'x' := by
              rcases hsec with hdg2 | rfl | rfl | rfl
              · intro heq
                rw [heq] at hdg2
                exact absurd hdg2 (by decide)
              all_goals decide
            have hX2 : c2 ≠ 'X' := by
              rcases hsec with hdg2 | rfl | rfl | rfl
              · intro heq
                rw [heq] at hdg2
                exact absurd hdg2 (by decide)
              all_goals decide
            simp [hexPre, hx2, hX2]
        · simp [hexPre, hc0]
      · simp [hexPre]
    have hv := scanDec_complete neg (c :: rest) hd
    obtain ⟨v, hv⟩ := hv
    refine ⟨v, ?_⟩
    simp only [scanBody]
    rw [if_neg (by simp [hguard 'i' _ (by decide)]),
      if_neg (by simp [hguard 'i' _ (by decide)]),
      if_neg (by simp [hguard 'n' _ (by decide)]),
      if_neg (by simp [hhexF])]
    exact hv
  · -- hexadecimal body
    obtain ⟨x, h1, f, e, hbs, hx, hh1, hf, he, hdig⟩ := hh
    subst hbs
    have g8 : ciPre ['i','n','f','i','n','i','t','y']
        ('0' :: x :: (h1 ++ f ++ e)) = false :=
      ciPre_false_small _ _ _ _ (by decide) (by decide)
    have g3 : ciPre ['i','n','f'] ('0' :: x :: (h1 ++ f ++ e)) = false :=
      ciPre_false_small _ _ _ _ (by decide) (by decide)
    have gn : ciPre ['n','a','n'] ('0' :: x :: (h1 ++ f ++ e)) = false :=
      ciPre_false_small _ _ _ _ (by decide) (by decide)
    have ghex : hexPre ('0' :: x :: (h1 ++ f ++ e)) = true := by
      rcases hx with rfl | rfl <;> simp [hexPre]
    have hfe : ∀ cc, (f ++ e).head? = some cc → isHexDig cc = false := by
      intro cc hc
      rcases hf with rfl | ⟨ds, rfl, -⟩
      · rw [List.nil_append] at hc
        rcases expOpt_head 'p' 'P' e he cc hc with rfl | rfl <;> decide
      · simp at hc
        rw [← hc]
        decide
    have hspan1 := span_exact h1 (f ++ e) hh1 hfe
    have hca : h1 ++ f ++ e = h1 ++ (f ++ e) := by simp [List.append_assoc]
    cases hsc : scanExp 'p' 'P' e with
    | mk e0 r3 =>
      have hc2 := scanExp_complete 'p' 'P' e he
      rw [hsc] at hc2
      simp only at hc2
      subst hc2
      simp only [scanBody]
      rw [if_neg (by rw [g8]; simp), if_neg (by rw [g3]; simp),
        if_neg (by rw [gn]; simp), if_pos ghex]
      have hd2 : ('0' :: x :: (h1 ++ f ++ e)).drop 2 = h1 ++ f ++ e := rfl
      rw [hd2, hca, hspan1.1, hspan1.2]
      rcases hf with rfl | ⟨ds, rfl, hds⟩
      · have hh1ne : h1 ≠ [] := by
          rcases hdig with hcon | ⟨ds, hds0, -⟩
          · exact hcon
          · exact absurd hds0 (by simp)
        have hdot : ¬ (e.head? = some '.') := by
          intro hcp
          rcases expOpt_head 'p' 'P' e he '.' hcp with hcon | hcon <;> simp at hcon
        rw [List.nil_append]
        rw [if_neg hdot]
        simp only
        rw [if_neg (by
          rw [Bool.and_eq_true]
          rintro ⟨hc1, -⟩
          cases h1 with
          | nil => exact hh1ne rfl
          | cons a t => simp at hc1)]
        rw [hsc]
        exact ⟨_, rfl⟩
      · have hehead : ∀ cc, e.head? = some cc → isHexDig cc = false := by
          intro cc hcp
          rcases expOpt_head 'p' 'P' e he cc hcp with rfl | rfl <;> decide
        have hspan2 := span_exact ds e hds hehead
        have hcond : ¬ ((h1.isEmpty && ds.isEmpty) = true) := by
          rw [Bool.and_eq_true]
          rintro ⟨hc1, hcq⟩
          rcases hdig with hcon | ⟨ds', hds', hne'⟩
          · cases h1 with
            | nil => exact hcon rfl
            | cons a t => simp at hc1
          · injection hds' with heq0 hc3
            cases ds with
            | nil => exact hne' hc3.symm
            | cons a t => simp at hcq
        rw [List.cons_append]
        rw [if_pos (show ('.' :: (ds ++ e)).head? = some '.' from rfl)]
        simp only [List.tail_cons]
        rw [hspan2.1, hspan2.2]
        rw [if_neg hcond]
        rw [hsc]
        exact ⟨_, rfl⟩
  · -- infinity body
    rcases hi with h3m | h8m
    · have hlen : b.length = 3 := by simpa using congrArg List.length h3m
      have g8 : ciPre ['i','n','f','i','n','i','t','y'] b = false := by
        cases hq : ciPre ['i','n','f','i','n','i','t','y'] b with
        | false => rfl
        | true =>
          have hs := ciPre_spec _ b hq
          have h2 := congrArg List.length hs
          rw [List.length_map, List.length_take, hlen] at h2
          exact absurd h2 (by decide)
      simp only [scanBody]
      rw [if_neg (by simp [g8]), if_pos (ciPre_of_map b _ h3m)]
      rw [List.drop_eq_nil_of_le (le_of_eq hlen)]
      exact ⟨_, rfl⟩
    · have hlen : b.length = 8 := by simpa using congrArg List.length h8m
      simp only [scanBody]
      rw [if_pos (ciPre_of_map b _ h8m)]
      rw [List.drop_eq_nil_of_le (le_of_eq hlen)]
      exact ⟨_, rfl⟩
  · -- nan body
    obtain ⟨h3map, hpay⟩ := hn
    cases b with
    | nil => simp at h3map
    | cons c rest =>
      have ht : (c :: rest).take 3 = c :: rest.take 2 := rfl
      have hcl : c.toLower = 'n' := by
        rw [ht, List.map_cons] at h3map
        exact List.head_eq_of_cons_eq h3map
      have g8 : ciPre ['i','n','f','i','n','i','t','y'] (c :: rest) = false := by
        apply ciPre_false_head
        rw [hcl]
        decide
      have g3 : ciPre ['i','n','f'] (c :: rest) = false := by
        apply ciPre_false_head
        rw [hcl]
        decide
      have gn : ciPre ['n','a','n'] (c :: rest) = true := by
        show (((c :: rest).take 3).map Char.toLower == ['n','a','n']) = true
        rw [h3map]
        decide
      simp only [scanBody]
      rw [if_neg (by simp [g8]), if_neg (by simp [g3]), if_pos gn]
      rcases hpay with hnil | ⟨seq, hseq, hseqc⟩
      · rw [hnil]
        rw [if_neg (by simp)]
        exact ⟨_, rfl⟩
      · rw [hseq]
        rw [if_pos (show ('(' :: (seq ++ [')'])).head? = some '(' from rfl)]
        simp only [List.tail_cons]
        have hclose : ∀ cc, ([')'] : List Char).head? = some cc → nanChar cc = false := by
          intro cc hc
          simp at hc
          rw [← hc]
          decide
        have hspan := span_exact seq [')'] hseqc hclose
        rw [hspan.2]
        rw [if_pos (show ([')'] : List Char).head? = some ')' from rfl)]
        exact ⟨_, rfl⟩

/-- Soundness of the full `strtod` scan: the consumed prefix lies in the
numeric language. -/
theorem strtodScan_sound (cs : List Char) (v : RVal) (r : List Char)
    (h : strtodScan cs = some (v, r)) : ∃ n0, cs = n0 ++ r ∧ numLang n0 := by
  simp only [strtodScan] at h
  cases hss : signSplit (cs.dropWhile cWs) with
  | mk neg r2 =>
    rw [hss] at h
    simp only at h
    obtain ⟨g, hg, hsg⟩ := signSplit_sound _ neg r2 hss
    obtain ⟨b0, hb0, hbl⟩ := scanBody_sound neg r2 v r h
    refine ⟨cs.takeWhile cWs ++ g ++ b0, ?_,
      ⟨cs.takeWhile cWs, g, b0, rfl, fun c hc => List.mem_takeWhile_imp hc, hsg, hbl⟩⟩
    conv_lhs => rw [← List.takeWhile_append_dropWhile cWs cs]
    rw [hg, hb0]
    simp [List.append_assoc]

/-- Completeness of the full `strtod` scan: every string of the numeric
language is consumed without remainder. -/
theorem strtodScan_complete (cs : List Char) (h : numLang cs) :
    ∃ v, strtodScan cs = some (v, []) := by
  obtain ⟨w, g, b, rfl, hw, hg, hb⟩ := h
  obtain ⟨c0, rest, hbs, h46⟩ := bodyLang_head b hb
  have hgb : ∀ c, (g ++ b).head? = some c → cWs c = false := by
    intro c hc
    rcases hg with rfl | rfl | rfl
    · rw [List.nil_append, hbs] at hc
      simp at hc
      subst hc
      cases hq : cWs c0 with
      | false => rfl
      | true => exact absurd (cWs_lt c0 hq) (by omega)
    · simp at hc
      rw [← hc]
      decide
    · simp at hc
      rw [← hc]
      decide
  have hca : w ++ g ++ b = w ++ (g ++ b) := by simp [List.append_assoc]
  have hspan := span_exact w (g ++ b) hw hgb
  have hbplus : ¬ (b.head? = some '+') := by
    rw [hbs]
    simp only [List.head?_cons, Option.some.injEq]
    intro hcon
    rw [hcon] at h46
    exact absurd h46 (by decide)
  have hbminus : ¬ (b.head? = some '-') := by
    rw [hbs]
    simp only [List.head?_cons, Option.some.injEq]
    intro hcon
    rw [hcon] at h46
    exact absurd h46 (by decide)
  simp only [strtodScan]
  rw [hca, hspan.2]
  rcases hg with rfl | rfl | rfl
  · have hsplit : signSplit ([] ++ b) = (false, b) := by
      rw [List.nil_append]
      unfold signSplit
      rw [if_neg hbplus, if_neg hbminus]
    rw [hsplit]
    exact scanBody_complete false b hb
  · have hsplit : signSplit (['+'] ++ b) = (false, b) := by
      unfold signSplit
      rw [List.singleton_append]
      rw [if_pos (show ('+' :: b).head? = some '+' from rfl)]
      rfl
    rw [hsplit]
    exact scanBody_complete false b hb
  · have hsplit : signSplit (['-'] ++ b) = (true, b) := by
      unfold signSplit
      rw [List.singleton_append]
      rw [if_neg (show ¬ (('-' :: b).head? = some '+') by simp)]
      rw [if_pos (show ('-' :: b).head? = some '-' from rfl)]
      rfl
    rw [hsplit]
    exact scanBody_complete true b hb

/-- C3: numeric detection is exactly full consumption by `strtod`, not the
claim's trimmed strict-decimal parse.  A field is represented as a numeric
scalar iff its whole text (leading C whitespace and an optional sign
allowed, trailing whitespace not allowed) is one `strtod` body — plain
decimal with optional fraction and exponent, or hexadecimal, infinity and
nan forms; the empty string is never numeric, a partial match such as
"12a" is not numeric, every non-numeric field is stored as its original
string unchanged, and every numeric field is stored as the parsed number. -/
theorem numeric_detection_strtod :
    (∀ s : String, is_numeric s = true ↔ numLang s.data) ∧
    is_numeric "" = false ∧
    is_numeric "12a" = false ∧
    (∀ v : String, is_numeric v = false → valJson v = Json.str v) ∧
    (∀ v : String, is_numeric v = true → valJson v = Json.num (parse_number v)) := by
  refine ⟨?_, by decide, by decide, ?_, ?_⟩
  · intro s
    constructor
    · intro h
      unfold is_numeric at h
      by_cases he : s.isEmpty = true
      · rw [if_pos he] at h
        exact absurd h (by decide)
      · rw [if_neg he] at h
        cases hsc : strtodScan s.data with
        | none =>
          rw [hsc] at h
          exact absurd h (by decide)
        | some p =>
          cases p with
          | mk v rest =>
            rw [hsc] at h
            have hrest : rest = [] := by
              cases rest with
              | nil => rfl
              | cons a t => simp at h
            subst hrest
            obtain ⟨n0, hn0, hlang⟩ := strtodScan_sound s.data v [] hsc
            rw [List.append_nil] at hn0
            rw [hn0]
            exact hlang
    · intro h
      obtain ⟨v, hv⟩ := strtodScan_complete s.data h
      have hne : s.isEmpty = false := by
        obtain ⟨w, g, b, heq, -, -, hbl⟩ := h
        obtain ⟨c0, rest, hbs, -⟩ := bodyLang_head b hbl
        cases hq : s.isEmpty with
        | false => rfl
        | true =>
          have hd := (string_isEmpty_iff s).mp hq
          rw [hd, hbs] at heq
          simp at heq
      unfold is_numeric
      rw [if_neg (by rw [hne]; simp), hv]
      rfl
  · intro v hv
    unfold valJson
    rw [if_neg (by rw [hv]; simp)]
  · intro v hv
    unfold valJson
    rw [if_pos hv]

/-- Witness for the C3 theorem at concrete fields: "1.5e3" is in the
numeric language, "abc" is stored as a string and "2" as a number. -/
theorem numeric_detection_strtod_witness :
    numLang ("1.5e3".data) ∧ valJson "abc" = Json.str "abc" ∧
    valJson "2" = Json.num (parse_number "2") :=
  ⟨(numeric_detection_strtod.1 "1.5e3").mp (by decide),
   numeric_detection_strtod.2.2.2.1 "abc" (by decide),
   numeric_detection_strtod.2.2.2.2 "2" (by decide)⟩

/-- C3 counterexample: the claim's trimmed strict-decimal detection
disagrees with the code.  "1 " (trailing space) is numeric per the claim
but the code stores it as a string; "0x1A" is not a plain decimal literal
but the code detects it as numeric. -/
theorem trailing_space_numeric_counterexample :
    claimNumeric "1 " = true ∧ is_numeric "1 " = false ∧
    valJson "1 " = Json.str "1 " ∧
    claimNumeric "0x1A" = false ∧ is_numeric "0x1A" = true := by
  refine ⟨by decide, by decide, ?_, by decide, by decide⟩
  unfold valJson
  rw [if_neg (by decide)]

end Replay
